import Mathlib

/-!
Verification of the matching core of the company-comparison scripts
(`compare_companies.py`, `compare_companies_optimized.py`,
`compare_companies_smart.py`).

Strings are modelled as `List Char`.  Python regular-expression operations
used by the scripts are simple enough to be translated directly:
a character-class substitution with empty replacement is a `filter`,
an anchored prefix alternation is an ordered prefix test, and so on.
Floating-point scores are modelled exactly as rationals (every score the
scripts compute is a ratio of small integers, and every comparison the
claims make is robust, so the rational model is faithful).
`pd.isna` input handling is modelled by an `Option` at the call boundary.
-/

namespace CompareCompanies

/-- Whitespace characters recognised by Python's `str.strip` / `\s`
(ASCII part of the Unicode whitespace class; the scripts' data never
hinges on exotic Unicode spaces). -/
def isPySpace (c : Char) : Bool :=
  c == ' ' || c == '\t' || c == '\n' || c == '\r' || c == '\x0b' || c == '\x0c'

/-- Python `str.strip()`: drop whitespace from both ends. -/
def pyStrip (s : List Char) : List Char :=
  ((s.dropWhile isPySpace).reverse.dropWhile isPySpace).reverse

/-- Characters removed by `re.sub(r'[\s\-\(\)]', '', ...)` in
`normalize_phone`. -/
def isPhoneStripChar (c : Char) : Bool :=
  isPySpace c || c == '-' || c == '(' || c == ')'

/-- `re.sub(r'^(\+966|966|0+)', '', s)`: the anchored alternation removes at
most one leading occurrence, trying the alternatives in order;
`0+` greedily takes every leading zero. -/
def strip966 (s : List Char) : List Char :=
  if s.take 4 = "+966".data then s.drop 4
  else if s.take 3 = "966".data then s.drop 3
  else if s.head? = some '0' then s.dropWhile (· == '0') else s

/-- `normalize_phone` (identical in all three scripts):
`pd.isna` input is the `none` case; then strip, remove whitespace, dashes
and parentheses, remove one leading `+966`/`966`/zero-run, and accept only
a non-empty residue of length at least 7. -/
def normalize_phone : Option (List Char) → Option (List Char)
  | none => none
  | some phone =>
    let s1 := pyStrip phone
    let s2 := s1.filter (fun c => !isPhoneStripChar c)
    let s3 := strip966 s2
    if s3 ≠ [] ∧ 7 ≤ s3.length then some s3 else none

/-- Python `\w` (Unicode mode): ASCII alphanumerics, underscore, and
non-ASCII word characters.  The scripts' non-ASCII data are Arabic letters,
which are word characters, so non-ASCII is modelled as word-forming. -/
def isWordChar (c : Char) : Bool :=
  c.isAlphanum || c == '_' || decide (128 ≤ c.toNat)

/-- Python `str.upper` modelled as the per-character ASCII uppercase map
(the scripts' data contain ASCII letters and Arabic letters; Arabic has no
case and is left unchanged, as in Python). -/
def toUpperChar (c : Char) : Char :=
  if 'a' ≤ c ∧ c ≤ 'z' then Char.ofNat (c.toNat - 32) else c

def pyUpper (s : List Char) : List Char := s.map toUpperChar

/-- `re.sub(r'\([^)]*\)', '', s)`: at each `(`, greedily take the run of
non-`)` characters; if a `)` follows, the whole group is removed and
scanning resumes after it, otherwise the `(` is kept.  The scan consumes at
least one character per step, so `s.length` steps of fuel always suffice;
the fuel only makes the recursion structural. -/
def removeParensAux : Nat → List Char → List Char
  | 0, s => s
  | _ + 1, [] => []
  | fuel + 1, c :: rest =>
    if c = '(' then
      match rest.dropWhile (fun d => d != ')') with
      | [] => c :: removeParensAux fuel rest
      | _ :: after => removeParensAux fuel after
    else c :: removeParensAux fuel rest

def removeParens (s : List Char) : List Char := removeParensAux s.length s

/-- `re.sub(r'\[[^\]]*\]', '', s)`, same scheme with square brackets. -/
def removeBracketsAux : Nat → List Char → List Char
  | 0, s => s
  | _ + 1, [] => []
  | fuel + 1, c :: rest =>
    if c = '[' then
      match rest.dropWhile (fun d => d != ']') with
      | [] => c :: removeBracketsAux fuel rest
      | _ :: after => removeBracketsAux fuel after
    else c :: removeBracketsAux fuel rest

def removeBrackets (s : List Char) : List Char := removeBracketsAux s.length s

/-- First pattern of `pats` (in alternation order) that literally matches at
the head of `s`; returns its length.  Empty patterns are rejected so a match
always consumes at least one character. -/
def matchAt (pats : List (List Char)) (s : List Char) : Option Nat :=
  (pats.find? (fun p => !p.isEmpty && decide (s.take p.length = p))).map List.length

theorem matchAt_pos {pats : List (List Char)} {s : List Char} {n : Nat}
    (h : matchAt pats s = some n) : 0 < n := by
  unfold matchAt at h
  cases hf : pats.find? (fun p => !p.isEmpty && decide (s.take p.length = p)) with
  | none => rw [hf] at h; cases h
  | some p =>
    rw [hf] at h
    have hp := List.find?_some hf
    simp at hp
    cases h
    cases p with
    | nil => simp at hp
    | cons a l => simp

/-- `re.sub` with an alternation of literal substrings (the Arabic
corporate-suffix pass): remove every non-overlapping occurrence, scanning
left to right and resuming after each removed match.  A match consumes at
least one character (`matchAt_pos`), so `s.length` fuel always suffices. -/
def removeSubsAux (pats : List (List Char)) : Nat → List Char → List Char
  | 0, s => s
  | _ + 1, [] => []
  | fuel + 1, c :: rest =>
    match matchAt pats (c :: rest) with
    | some n => removeSubsAux pats fuel ((c :: rest).drop n)
    | none => c :: removeSubsAux pats fuel rest

def removeSubs (pats : List (List Char)) (s : List Char) : List Char :=
  removeSubsAux pats s.length s

/-- One alternative of `\b(LTD|...)\b` matching (case-insensitively) at the
head of `s`, with the trailing word boundary checked after the matched word;
alternatives are tried in the order the source lists them.  Returns the
length of the match. -/
def wordMatchAt (words : List (List Char)) (s : List Char) : Option Nat :=
  (words.find? (fun w =>
    !w.isEmpty && decide (pyUpper (s.take w.length) = w) &&
      (match s.drop w.length with
       | [] => true
       | d :: _ => !isWordChar d))).map List.length

theorem wordMatchAt_pos {words : List (List Char)} {s : List Char} {n : Nat}
    (h : wordMatchAt words s = some n) : 0 < n := by
  unfold wordMatchAt at h
  cases hf : words.find? (fun w =>
      !w.isEmpty && decide (pyUpper (s.take w.length) = w) &&
        (match s.drop w.length with
         | [] => true
         | d :: _ => !isWordChar d)) with
  | none => rw [hf] at h; cases h
  | some w =>
    rw [hf] at h
    have hw := List.find?_some hf
    cases h
    cases w with
    | nil => simp at hw
    | cons a l => simp

/-- Scanner for `re.sub(r'\b(LTD|...)\b', '', s, flags=IGNORECASE)`.
`prev` is the character just before the current position (`none` at the
start); a match may begin only at a word boundary, i.e. when `prev` is
absent or not a word character (every alternative starts with a letter).
A match consumes at least one character (`wordMatchAt_pos`), so `s.length`
fuel always suffices. -/
def removeWordsAux (words : List (List Char)) : Nat → Option Char →
    List Char → List Char
  | 0, _, s => s
  | _ + 1, _, [] => []
  | fuel + 1, prev, c :: rest =>
    if (match prev with | none => true | some pc => !isWordChar pc) then
      match wordMatchAt words (c :: rest) with
      | some n =>
          removeWordsAux words fuel (some ((c :: rest).getD (n - 1) c))
            ((c :: rest).drop n)
      | none => c :: removeWordsAux words fuel (some c) rest
    else c :: removeWordsAux words fuel (some c) rest

def removeWords (words : List (List Char)) (s : List Char) : List Char :=
  removeWordsAux words s.length none s

/-- `re.sub(r'\s+', ' ', s)`: replace each maximal whitespace run by one
blank.  `prevSpace` records whether the previous character belonged to a
whitespace run (whose blank has already been emitted). -/
def collapseAux (prevSpace : Bool) : List Char → List Char
  | [] => []
  | c :: rest =>
    if isPySpace c then
      (if prevSpace then [] else [' ']) ++ collapseAux true rest
    else c :: collapseAux false rest

def collapseSpaces (s : List Char) : List Char := collapseAux false s

/-- The legal-suffix vocabulary of `clean_company_name`
(`\b(LTD|LIMITED|LLC|INC|CORP|CO|COMPANY|EST|ESTABLISHMENT)\b`, IGNORECASE). -/
def suffixWords : List (List Char) :=
  ["LTD".data, "LIMITED".data, "LLC".data, "INC".data, "CORP".data, "CO".data,
   "COMPANY".data, "EST".data, "ESTABLISHMENT".data]

/-- The Arabic corporate-suffix substrings removed by both name
normalizers (`شركة|مصنع|فرع|المحدودة|للصناعة|للتجارة|التجارية`). -/
def arabicWords : List (List Char) :=
  ["شركة".data, "مصنع".data, "فرع".data, "المحدودة".data, "للصناعة".data,
   "للتجارة".data, "التجارية".data]

/-- `clean_company_name` from `compare_companies_smart.py`: strip, remove
parenthesized and bracketed segments, remove legal-suffix words, remove
Arabic suffix substrings, collapse whitespace runs, strip, and upper-case;
absent when the residue is empty.  (`pd.isna` inputs are the absent case
handled at the call sites.) -/
def clean_company_name (name : List Char) : Option (List Char) :=
  let s1 := pyStrip name
  let s2 := removeParens s1
  let s3 := removeBrackets s2
  let s4 := removeWords suffixWords s3
  let s5 := removeSubs arabicWords s4
  let s6 := collapseSpaces s5
  let s7 := pyStrip s6
  if s7 = [] then none else some (pyUpper s7)

/-- `normalize_company_name` from `compare_companies.py` /
`compare_companies_optimized.py`: strip, remove the Arabic suffix
substrings, strip again; absent when the residue is empty. -/
def normalize_company_name (name : List Char) : Option (List Char) :=
  let s1 := pyStrip name
  let s2 := removeSubs arabicWords s1
  let s3 := pyStrip s2
  if s3 = [] then none else some s3

/-- Maximal runs of word characters, collected left to right with an
accumulator holding the current run in reverse.
`re.findall(r'\b\w{3,}\b', s)` returns exactly the maximal `\w`-runs of
length at least 3, since a maximal run is flanked by boundaries and the
greedy `\w{3,}` consumes it whole. -/
def wordRunsAux (cur : List Char) : List Char → List (List Char)
  | [] => if cur = [] then [] else [cur.reverse]
  | c :: rest =>
    if isWordChar c then wordRunsAux (c :: cur) rest
    else if cur = [] then wordRunsAux [] rest
    else cur.reverse :: wordRunsAux [] rest

def wordRuns (s : List Char) : List (List Char) := wordRunsAux [] s

/-- `get_name_keywords` from `compare_companies_smart.py`: the set of
`\b\w{3,}\b` tokens of the upper-cased name; falsy names (absent or empty)
give the empty set. -/
def get_name_keywords (name : Option (List Char)) : Finset (List Char) :=
  match name with
  | none => ∅
  | some s =>
    if s = [] then ∅
    else ((wordRuns (pyUpper s)).filter (fun r => 3 ≤ r.length)).toFinset

/-! ### difflib.SequenceMatcher (isjunk = None, autojunk = True)

`similarity_score` calls `SequenceMatcher(None, name1, name2).ratio()` from
the Python standard library.  The model below translates difflib's
algorithm: `b2j` maps a character to the ascending list of its positions in
`b`, with "popular" characters dropped by the autojunk heuristic when
`len(b) >= 200`; `findLongestMatch` runs the dynamic-programming scan over
the rows of `a` (the dict `j2len` is modelled as a total function that is
`0` outside its keys, exactly the `dict.get(j-1, 0)` behaviour) followed by
the two non-junk extension while-loops (the junk extension loops of the
source are identities here because `isjunk=None` leaves the junk set empty,
and `not isbjunk(...)` is always true for the same reason).
`matchingSizeSum` adds up the sizes of the matching blocks by the
divide-and-conquer around each longest match; difflib's explicit queue and
its adjacent-block merge post-pass enumerate the same blocks, and only the
size sum enters `ratio`.  `ratio = 2 * matches / (len(a) + len(b))` is
computed exactly in `ℚ` (and is `1` when both sequences are empty, as in
`_calculate_ratio`).  While-loops are given explicit fuel to make the
recursion structural; each wrapper passes fuel that the loop guard can
never exhaust, so the fuel clauses are unreachable. -/

def posList (b : List Char) (c : Char) : List Nat :=
  (List.range b.length).filter (fun j => b.getD j ' ' == c)

/-- Positions of `c` in `b`, after the autojunk deletion: with
`n = len(b) >= 200` and `ntest = n // 100 + 1`, characters occurring more
than `ntest` times are removed from the index. -/
def b2j (b : List Char) (c : Char) : List Nat :=
  if 200 ≤ b.length ∧ b.length / 100 + 1 < (posList b c).length then []
  else posList b c

structure FlmState where
  besti : Nat
  bestj : Nat
  bestsize : Nat
deriving DecidableEq

/-- Inner loop of the `find_longest_match` scan: one row `i`, iterating over
the in-window positions `js` of `a[i]` in `b`; `k = j2len.get(j-1, 0) + 1`,
`newj2len[j] = k`, and the best block is updated on `k > bestsize` to
`(i-k+1, j-k+1, k)`. -/
def scanRow (j2len : Nat → Nat) (i : Nat) :
    List Nat → FlmState → (Nat → Nat) → FlmState × (Nat → Nat)
  | [], best, newj2len => (best, newj2len)
  | j :: js, best, newj2len =>
    let k := (if j = 0 then 0 else j2len (j - 1)) + 1
    let best' : FlmState := if best.bestsize < k then ⟨i + 1 - k, j + 1 - k, k⟩ else best
    scanRow j2len i js best' (fun j' => if j' = j then k else newj2len j')

/-- Outer loop of the scan over rows `i = alo .. ahi-1`.  Python skips
`j < blo` (`continue`) and stops at `j >= bhi` (`break`); as the position
lists are ascending this is the same as filtering then truncating. -/
def scanRows (a : List Char) (b2jf : Char → List Nat) (blo bhi : Nat) :
    Nat → Nat → FlmState → (Nat → Nat) → FlmState
  | _, 0, best, _ => best
  | i, rows + 1, best, j2len =>
    let js := ((b2jf (a.getD i ' ')).filter (fun j => blo ≤ j)).takeWhile
      (fun j => j < bhi)
    let p := scanRow j2len i js best (fun _ => 0)
    scanRows a b2jf blo bhi (i + 1) rows p.1 p.2

/-- Backward extension loop: while the block can be extended one character
to the left, do so.  Fuel `besti` suffices: each step decrements `besti`. -/
def extendBack (a b : List Char) (alo blo : Nat) : Nat → Nat → Nat → Nat → FlmState
  | 0, besti, bestj, bestsize => ⟨besti, bestj, bestsize⟩
  | fuel + 1, besti, bestj, bestsize =>
    if alo < besti ∧ blo < bestj ∧ a.getD (besti - 1) ' ' = b.getD (bestj - 1) ' '
    then extendBack a b alo blo fuel (besti - 1) (bestj - 1) (bestsize + 1)
    else ⟨besti, bestj, bestsize⟩

/-- Forward extension loop: while the block can be extended one character to
the right, do so.  Fuel `ahi - besti - bestsize` suffices. -/
def extendFwd (a b : List Char) (ahi bhi : Nat) : Nat → Nat → Nat → Nat → FlmState
  | 0, besti, bestj, bestsize => ⟨besti, bestj, bestsize⟩
  | fuel + 1, besti, bestj, bestsize =>
    if besti + bestsize < ahi ∧ bestj + bestsize < bhi ∧
        a.getD (besti + bestsize) ' ' = b.getD (bestj + bestsize) ' '
    then extendFwd a b ahi bhi fuel besti bestj (bestsize + 1)
    else ⟨besti, bestj, bestsize⟩

/-- `find_longest_match(alo, ahi, blo, bhi)`. -/
def findLongestMatch (a b : List Char) (b2jf : Char → List Nat)
    (alo ahi blo bhi : Nat) : FlmState :=
  let s1 := scanRows a b2jf blo bhi alo (ahi - alo) ⟨alo, blo, 0⟩ (fun _ => 0)
  let s2 := extendBack a b alo blo s1.besti s1.besti s1.bestj s1.bestsize
  extendFwd a b ahi bhi (ahi - (s2.besti + s2.bestsize)) s2.besti s2.bestj s2.bestsize

/-- Total size of the matching blocks of the window, by recursion around the
longest match.  A block consumes at least one character of the `a`-window,
so `width + 1` fuel suffices from the top. -/
def matchingSizeSum (a b : List Char) (b2jf : Char → List Nat) :
    Nat → Nat → Nat → Nat → Nat → Nat
  | 0, _, _, _, _ => 0
  | fuel + 1, alo, ahi, blo, bhi =>
    let st := findLongestMatch a b b2jf alo ahi blo bhi
    if st.bestsize = 0 then 0
    else
      matchingSizeSum a b b2jf fuel alo st.besti blo st.bestj + st.bestsize +
        matchingSizeSum a b b2jf fuel (st.besti + st.bestsize) ahi
          (st.bestj + st.bestsize) bhi

/-- Proof-auxiliary quantity (not part of the Python translation): the
length of the matching run ending at cell `(i, j)` of the scan's dynamic
program, relative to a position index `f`; this is the value the dict
`j2len` holds at `j` after row `i`. -/
def rl (f : Char → List Nat) (a : List Char) : Nat → Nat → Nat
  | 0, j => if j ∈ f (a.getD 0 ' ') then 1 else 0
  | i + 1, j =>
    if j ∈ f (a.getD (i + 1) ' ') then
      (if j = 0 then 0 else rl f a i (j - 1)) + 1
    else 0

/-- `SequenceMatcher(None, a, b).ratio()`, exactly. -/
def ratioQ (a b : List Char) : ℚ :=
  if a.length + b.length = 0 then 1
  else 2 * (matchingSizeSum a b (b2j b) (a.length + 1) 0 a.length 0 b.length : ℚ) /
    (a.length + b.length : ℚ)

/-- The keyword-overlap component of `similarity_score`: the overlap
`|K1 ∩ K2| / max(|K1|, |K2|)` of the two keyword sets, `0.0` unless both
are non-empty. -/
def keywordSim (name1 name2 : List Char) : ℚ :=
  if (get_name_keywords (some name1)).Nonempty ∧
      (get_name_keywords (some name2)).Nonempty then
    ((get_name_keywords (some name1) ∩ get_name_keywords (some name2)).card : ℚ) /
      (max (get_name_keywords (some name1)).card
        (get_name_keywords (some name2)).card : ℚ)
  else 0

/-- `similarity_score` from `compare_companies_smart.py`: `0.0` on falsy
inputs; otherwise the maximum of the `SequenceMatcher` ratio (`basic_sim`)
and the keyword overlap (`keyword_sim`). -/
def similarity_score (name1 name2 : List Char) : ℚ :=
  if name1 = [] ∨ name2 = [] then 0
  else max (ratioQ name1 name2) (keywordSim name1 name2)

/-- Normal form of whitespace inside a collapsed string: every whitespace
character is a plain blank, and no two whitespace characters are adjacent. -/
def blanksOK (l : List Char) : Prop :=
  (∀ c ∈ l, isPySpace c = true → c = ' ') ∧
    l.Chain' (fun a b => isPySpace a = false ∨ isPySpace b = false)

/-- The similarity scorer as the spec's section 4.3 words it, for the
refinement claim: 0.0 if either input is absent/empty; otherwise the
maximum of the character edit-similarity ratio and the token overlap
`|A inter B| / max(|A|,|B|)` of the two keyword sets, the latter 0.0 when
either keyword set is empty. -/
def spec_similarity_score (name1 name2 : List Char) : ℚ :=
  if name1 = [] ∨ name2 = [] then 0
  else
    max (ratioQ name1 name2)
      (if get_name_keywords (some name1) ≠ ∅ ∧ get_name_keywords (some name2) ≠ ∅
       then ((get_name_keywords (some name1) ∩
          get_name_keywords (some name2)).card : ℚ) /
        (max (get_name_keywords (some name1)).card
          (get_name_keywords (some name2)).card : ℚ)
       else 0)

/-! ### The keyword-pruned matcher of `compare_companies_smart.py`

Reference records reach the core as `(source, name, raw phone)` triples
(the three CSV ingestion loops only differ in which columns they read,
an I/O concern).  A query is the raw text of the Excel name cell.
`set` iteration order in CPython is unspecified (and the keyword sets that
feed `candidates.update` iterate in string-hash order), so the candidate
set's iteration order is modelled as an explicit parameter `ord`,
constrained to enumerate exactly the candidate set (`validOrder`); theorems
quantify over it. -/

structure CsvCompany where
  source : List Char
  original_name : List Char
  cleaned_name : Option (List Char)
  phone : Option (List Char)
  keywords : Finset (List Char)
deriving DecidableEq

def mkCsvCompany (source name : List Char) (phone : Option (List Char)) :
    CsvCompany :=
  { source := source
    original_name := name
    cleaned_name := clean_company_name name
    phone := normalize_phone phone
    keywords := get_name_keywords (clean_company_name name) }

/-- The index build: one `CsvCompany` per reference row whose name is truthy
and not the literal string `nan`. -/
def buildCsvCompanies
    (rows : List (List Char × List Char × Option (List Char))) :
    List CsvCompany :=
  rows.filterMap (fun r =>
    if r.2.1 ≠ [] ∧ r.2.1 ≠ "nan".data then some (mkCsvCompany r.1 r.2.1 r.2.2)
    else none)

/-- `keyword_index[kw]`: the indices (in input order, hence ascending) of the
companies whose keyword set contains `kw`. -/
def keyword_index (companies : List CsvCompany) (kw : List Char) : List Nat :=
  (List.range companies.length).filter (fun idx =>
    match companies.get? idx with
    | some c => decide (kw ∈ c.keywords)
    | none => false)

/-- The candidate set of a query: the union over the query's keywords of the
keyword index's postings lists (the value of the Python `set` after all
`update` calls). -/
def candidateSet (companies : List CsvCompany) (kws : Finset (List Char)) :
    Finset Nat :=
  kws.biUnion (fun kw => (keyword_index companies kw).toFinset)

/-- `ord` is an admissible iteration order of the candidate set: it
enumerates exactly its elements, each once. -/
def validOrder (companies : List CsvCompany) (kws : Finset (List Char))
    (ord : List Nat) : Prop :=
  ord.Nodup ∧ (∀ i ∈ ord, i ∈ candidateSet companies kws) ∧
    (∀ i ∈ candidateSet companies kws, i ∈ ord)

instance (companies : List CsvCompany) (kws : Finset (List Char))
    (ord : List Nat) : Decidable (validOrder companies kws ord) := by
  unfold validOrder
  infer_instance

structure BestMatch where
  csv_idx : Nat
  similarity : ℚ
deriving DecidableEq

/-- The detailed comparison over the candidates, in iteration order:
candidates without a cleaned name are skipped, and a candidate is kept when
its similarity reaches the threshold. -/
def bestMatchesOf (companies : List CsvCompany) (threshold : ℚ)
    (cleaned : List Char) (ord : List Nat) : List BestMatch :=
  ord.filterMap (fun idx =>
    match companies.get? idx with
    | none => none
    | some c =>
      match c.cleaned_name with
      | none => none
      | some cc =>
        if threshold ≤ similarity_score cleaned cc then
          some ⟨idx, similarity_score cleaned cc⟩
        else none)

/-- Stable insertion into a descending-by-similarity list: the inserted
element goes before every element of not-larger similarity.  Folding it over
the list right-to-left is a stable descending sort; Python's
`sort(key=similarity, reverse=True)` is also stable descending, and a
stable sort's result is unique, so the two agree. -/
def insertBM (x : BestMatch) : List BestMatch → List BestMatch
  | [] => [x]
  | y :: ys => if y.similarity ≤ x.similarity then x :: y :: ys
      else y :: insertBM x ys

def sortBM : List BestMatch → List BestMatch
  | [] => []
  | x :: xs => insertBM x (sortBM xs)

structure SmartMatch where
  excel_name : List Char
  excel_cleaned : List Char
  csv_source : List Char
  csv_name : List Char
  csv_cleaned : Option (List Char)
  csv_phone : Option (List Char)
  similarity : ℚ
deriving DecidableEq

/-- One iteration of the smart matching loop, for one query, given the
iteration order `ord` of its candidate set.  Skips blank/`nan` names and
queries whose cleaned name is absent; prunes to keyword candidates
(`if not candidates: continue`); keeps threshold-passing candidates; sorts
them by similarity descending (stable) and emits the top 3.  The emitted
record's similarity field carries the exact score (the source rounds it to
three decimals for display when writing the row). -/
def processQuerySmart (companies : List CsvCompany) (threshold : ℚ)
    (rawName : List Char) (ord : List Nat) : List SmartMatch :=
  if pyStrip rawName = [] ∨ pyStrip rawName = "nan".data then []
  else
    match clean_company_name (pyStrip rawName) with
    | none => []
    | some excel_cleaned =>
      if ord = [] then []
      else if bestMatchesOf companies threshold excel_cleaned ord = [] then []
      else
        ((sortBM (bestMatchesOf companies threshold excel_cleaned ord)).take 3).map
          (fun m =>
            { excel_name := pyStrip rawName
              excel_cleaned := excel_cleaned
              csv_source := ((companies.get? m.csv_idx).map
                (fun c => c.source)).getD []
              csv_name := ((companies.get? m.csv_idx).map
                (fun c => c.original_name)).getD []
              csv_cleaned := ((companies.get? m.csv_idx).map
                (fun c => c.cleaned_name)).getD none
              csv_phone := ((companies.get? m.csv_idx).map
                (fun c => c.phone)).getD none
              similarity := m.similarity })

/-! ### The indexed matcher of `compare_companies_optimized.py` -/

inductive MatchKind where
  | exact
  | normalized
  | phone
  | similarity
deriving DecidableEq

structure OptCompany where
  source : List Char
  company_name : List Char
  normalized_name : Option (List Char)
  phone : Option (List Char)
deriving DecidableEq

def mkOptCompany (source name : List Char) (phone : Option (List Char)) :
    OptCompany :=
  { source := source
    company_name := name
    normalized_name := normalize_company_name name
    phone := normalize_phone phone }

/-- `csv_companies_by_name[key]` after the `add_to_index` build: for each
admitted record, one entry under its raw name and (when present) one under
its normalized name, in record order with raw before normalized. -/
def csv_companies_by_name
    (rows : List (List Char × List Char × Option (List Char)))
    (key : List Char) : List OptCompany :=
  rows.flatMap (fun r =>
    if r.2.1 = [] ∨ r.2.1 = "nan".data then []
    else
      (if r.2.1 = key then [mkOptCompany r.1 r.2.1 r.2.2] else []) ++
        (match (mkOptCompany r.1 r.2.1 r.2.2).normalized_name with
         | some nn => if nn = key then [mkOptCompany r.1 r.2.1 r.2.2] else []
         | none => []))

/-- `csv_companies_by_phone[key]`: built by `add_to_index` but never
consulted by the matching loop below. -/
def csv_companies_by_phone
    (rows : List (List Char × List Char × Option (List Char)))
    (key : List Char) : List OptCompany :=
  rows.flatMap (fun r =>
    if r.2.1 = [] ∨ r.2.1 = "nan".data then []
    else
      match (mkOptCompany r.1 r.2.1 r.2.2).phone with
      | some p => if p = key then [mkOptCompany r.1 r.2.1 r.2.2] else []
      | none => [])

structure OptMatch where
  excel_name : List Char
  csv_source : List Char
  csv_name : List Char
  csv_phone : Option (List Char)
  similarity : ℚ
  kind : MatchKind
deriving DecidableEq

/-- One lookup stage of the optimized matching loop: emit one match per hit
whose `(source, raw name)` key is new, threading the per-query `matched`
set (modelled by its membership list). -/
def emitStage (excel_name : List Char) (kind : MatchKind) (score : ℚ) :
    List OptCompany → List (List Char × List Char) →
      List OptMatch × List (List Char × List Char)
  | [], matched => ([], matched)
  | c :: cs, matched =>
    if (c.source, c.company_name) ∈ matched then
      emitStage excel_name kind score cs matched
    else
      ({ excel_name := excel_name
         csv_source := c.source
         csv_name := c.company_name
         csv_phone := c.phone
         similarity := score
         kind := kind } ::
          (emitStage excel_name kind score cs
            ((c.source, c.company_name) :: matched)).1,
        (emitStage excel_name kind score cs
          ((c.source, c.company_name) :: matched)).2)

/-- The optimized matching loop for one query: the exact stage (raw name
lookup, kind `exact`, score `1.0`) followed by the normalized stage
(normalized name lookup, kind `normalized`, score `0.95`); no other stage
exists, and in particular the phone index is never consulted. -/
def processQueryOpt (rows : List (List Char × List Char × Option (List Char)))
    (rawName : List Char) : List OptMatch :=
  if pyStrip rawName = [] ∨ pyStrip rawName = "nan".data then []
  else
    (emitStage (pyStrip rawName) MatchKind.exact 1
      (csv_companies_by_name rows (pyStrip rawName)) []).1 ++
      (match normalize_company_name (pyStrip rawName) with
       | none => []
       | some nn =>
         (emitStage (pyStrip rawName) MatchKind.normalized (95 / 100)
           (csv_companies_by_name rows nn)
           (emitStage (pyStrip rawName) MatchKind.exact 1
             (csv_companies_by_name rows (pyStrip rawName)) []).2).1)

def matchesOpt (rows : List (List Char × List Char × Option (List Char)))
    (queries : List (List Char)) : List OptMatch :=
  queries.flatMap (processQueryOpt rows)

/- ===================== theorems ===================== -/

theorem mem_of_mem_strip966 {c : Char} {s : List Char} (h : c ∈ strip966 s) : c ∈ s := by
  unfold strip966 at h
  split at h
  · exact (List.drop_sublist 4 s).mem h
  · split at h
    · exact (List.drop_sublist 3 s).mem h
    · split at h
      · exact ((List.dropWhile_sublist _).mem h)
      · exact h

theorem pyStrip_eq_self {s : List Char} (h : ∀ c ∈ s, isPySpace c = false) :
    pyStrip s = s := by
  unfold pyStrip
  have h1 : s.dropWhile isPySpace = s := by
    rw [List.dropWhile_eq_self_iff]
    intro hl
    simpa using h _ (s.get_mem 0 hl)
  rw [h1]
  have h2 : s.reverse.dropWhile isPySpace = s.reverse := by
    rw [List.dropWhile_eq_self_iff]
    intro hl
    simpa using h _ (List.mem_reverse.mp (s.reverse.get_mem 0 hl))
  rw [h2, List.reverse_reverse]

theorem normalize_phone_shape {x y : List Char}
    (h : normalize_phone (some x) = some y) :
    y = strip966 ((pyStrip x).filter (fun c => !isPhoneStripChar c)) ∧
      y ≠ [] ∧ 7 ≤ y.length := by
  unfold normalize_phone at h
  simp only at h
  split at h
  · rename_i hg
    cases h
    exact ⟨rfl, hg⟩
  · cases h

theorem normalize_phone_chars {x y : List Char}
    (h : normalize_phone (some x) = some y) :
    ∀ c ∈ y, isPhoneStripChar c = false := by
  obtain ⟨hy, -, -⟩ := normalize_phone_shape h
  intro c hc
  rw [hy] at hc
  have := List.of_mem_filter (mem_of_mem_strip966 hc)
  simpa using this

/-- C1 (amended): if `normalize_phone` returns a present value, that value has
length at least 7 and contains no whitespace, hyphen, or parenthesis
characters.  (It need not consist of digits only: the source never checks
digit-hood, see the counterexample.) -/
theorem C1_phone_invariant (x : Option (List Char)) (y : List Char)
    (h : normalize_phone x = some y) :
    7 ≤ y.length ∧ ∀ c ∈ y, isPhoneStripChar c = false := by
  match x with
  | none => simp [normalize_phone] at h
  | some x =>
    exact ⟨(normalize_phone_shape h).2.2, normalize_phone_chars h⟩

theorem C1_phone_invariant_witness :
    (normalize_phone (some "05x1234567".data) = some "5x1234567".data) ∧
      7 ≤ "5x1234567".data.length ∧
      ∀ c ∈ "5x1234567".data, isPhoneStripChar c = false :=
  ⟨by decide, C1_phone_invariant (some "05x1234567".data) "5x1234567".data (by decide)⟩

/-- C1 (counterexample): `normalize_phone("abcdefg")` is present but contains
non-digit characters, refuting the digits-only half of the claimed invariant. -/
theorem C1_counterexample :
    normalize_phone (some "abcdefg".data) = some "abcdefg".data ∧
      'a' ∈ "abcdefg".data ∧ 'a'.isDigit = false := by
  decide

/-- C2 (amended): `normalize_phone` is idempotent on every input whose output
is left unchanged by the leading `+966`/`966`/zero-run removal (equivalently,
whose output does not again start with one of those prefixes).  The
unconditional claim fails because the anchored prefix substitution is applied
once per call, see the counterexample. -/
theorem C2_phone_idempotent (x y : List Char)
    (h : normalize_phone (some x) = some y) (hfix : strip966 y = y) :
    normalize_phone (some y) = some y := by
  obtain ⟨-, hne, hlen⟩ := normalize_phone_shape h
  have hchars := normalize_phone_chars h
  have hstrip : pyStrip y = y := by
    apply pyStrip_eq_self
    intro c hc
    have := hchars c hc
    unfold isPhoneStripChar at this
    cases hsp : isPySpace c
    · rfl
    · simp [hsp] at this
  have hfilter : y.filter (fun c => !isPhoneStripChar c) = y := by
    rw [List.filter_eq_self]
    intro c hc
    simp [hchars c hc]
  unfold normalize_phone
  simp only [hstrip, hfilter, hfix]
  simp [hne, hlen]

theorem C2_phone_idempotent_witness :
    (normalize_phone (some "+9661234567".data) = some "1234567".data) ∧
      (strip966 "1234567".data = "1234567".data) ∧
      normalize_phone (some "1234567".data) = some "1234567".data :=
  ⟨by decide, by decide,
    C2_phone_idempotent "+9661234567".data "1234567".data (by decide) (by decide)⟩

/- Character-level facts about the uppercase map. -/

theorem toNat_ofNat_of_valid {n : Nat} (hn : n < 55296) : (Char.ofNat n).toNat = n := by
  have hv : n.isValidChar := by left; exact hn
  have hlt : n < UInt32.size := by simp [UInt32.size]; omega
  simp [Char.ofNat, hv, Char.toNat, Char.ofNatAux, UInt32.ofNat', UInt32.toNat,
    BitVec.toNat_ofNat, Nat.mod_eq_of_lt hlt]

theorem isPySpace_eq_false_of_toNat {c : Char} (h1 : 33 ≤ c.toNat) :
    isPySpace c = false := by
  simp only [isPySpace, Bool.or_eq_false_iff, beq_eq_false_iff_ne, ne_eq]
  refine ⟨⟨⟨⟨⟨?_, ?_⟩, ?_⟩, ?_⟩, ?_⟩, ?_⟩ <;> (rintro rfl; revert h1; decide)

theorem toUpperChar_toNat {c : Char} (h1 : 'a' ≤ c) (h2 : c ≤ 'z') :
    (toUpperChar c).toNat = c.toNat - 32 := by
  unfold toUpperChar
  rw [if_pos ⟨h1, h2⟩]
  rw [Char.le_def] at h1 h2
  have ha : 97 ≤ c.toNat := h1
  have hz : c.toNat ≤ 122 := h2
  exact toNat_ofNat_of_valid (by omega)

theorem isPySpace_toUpperChar (c : Char) : isPySpace (toUpperChar c) = isPySpace c := by
  by_cases hc : 'a' ≤ c ∧ c ≤ 'z'
  · obtain ⟨h1, h2⟩ := hc
    have ha : 97 ≤ c.toNat := Char.le_def.mp h1
    have hz : c.toNat ≤ 122 := Char.le_def.mp h2
    have hup := toUpperChar_toNat h1 h2
    rw [isPySpace_eq_false_of_toNat (c := toUpperChar c) (by omega),
      isPySpace_eq_false_of_toNat (c := c) (by omega)]
  · unfold toUpperChar
    rw [if_neg hc]

theorem toUpperChar_idem (c : Char) : toUpperChar (toUpperChar c) = toUpperChar c := by
  have hdef : ∀ d : Char, toUpperChar d =
      if 'a' ≤ d ∧ d ≤ 'z' then Char.ofNat (d.toNat - 32) else d := fun _ => rfl
  by_cases hc : 'a' ≤ c ∧ c ≤ 'z'
  · obtain ⟨h1, h2⟩ := hc
    have ha : 97 ≤ c.toNat := Char.le_def.mp h1
    have hz : c.toNat ≤ 122 := Char.le_def.mp h2
    have hup := toUpperChar_toNat h1 h2
    have hne : ¬('a' ≤ toUpperChar c ∧ toUpperChar c ≤ 'z') := by
      rintro ⟨hl, -⟩
      have h97 : 97 ≤ (toUpperChar c).toNat := Char.le_def.mp hl
      omega
    rw [hdef (toUpperChar c), if_neg hne]
  · have e : toUpperChar c = c := by rw [hdef c, if_neg hc]
    rw [e, e]

theorem pyUpper_idem (l : List Char) : pyUpper (pyUpper l) = pyUpper l := by
  unfold pyUpper
  rw [List.map_map]
  exact List.map_congr_left (fun a _ => toUpperChar_idem a)

/- `pyStrip` as a contiguous sub-list, its idempotence, and its boundary
characters. -/

theorem head?_dropWhile_not (p : Char → Bool) (l : List Char) {a : Char}
    (h : (l.dropWhile p).head? = some a) : p a = false := by
  induction l with
  | nil => simp [List.dropWhile] at h
  | cons c rest ih =>
    rw [List.dropWhile_cons] at h
    split at h
    · exact ih h
    · simp at h
      subst h
      rename_i hpc
      simpa using hpc

theorem getLast?_dropWhile (p : Char → Bool) (l : List Char) {a : Char}
    (h : (l.dropWhile p).getLast? = some a) : l.getLast? = some a := by
  obtain ⟨t, ht⟩ := List.dropWhile_suffix (l := l) p
  rw [← ht, List.getLast?_append, h]
  rfl

theorem pyStrip_head? {s : List Char} {a : Char}
    (h : (pyStrip s).head? = some a) : isPySpace a = false := by
  unfold pyStrip at h
  rw [List.head?_reverse] at h
  have h2 := getLast?_dropWhile _ _ h
  rw [List.getLast?_reverse] at h2
  exact head?_dropWhile_not _ _ h2

theorem pyStrip_getLast? {s : List Char} {a : Char}
    (h : (pyStrip s).getLast? = some a) : isPySpace a = false := by
  unfold pyStrip at h
  rw [List.getLast?_reverse] at h
  exact head?_dropWhile_not _ _ h

theorem pyStrip_eq_self_of_ends {l : List Char}
    (h1 : ∀ a, l.head? = some a → isPySpace a = false)
    (h2 : ∀ a, l.getLast? = some a → isPySpace a = false) : pyStrip l = l := by
  unfold pyStrip
  have e1 : l.dropWhile isPySpace = l := by
    cases l with
    | nil => rfl
    | cons c rest => rw [List.dropWhile_cons, h1 c rfl]; simp
  rw [e1]
  have e2 : l.reverse.dropWhile isPySpace = l.reverse := by
    cases hr : l.reverse with
    | nil => rfl
    | cons c rest =>
      have hc : l.getLast? = some c := by rw [← List.head?_reverse, hr]; rfl
      rw [List.dropWhile_cons, h2 c hc]; simp
  rw [e2, List.reverse_reverse]

theorem pyStrip_idem (s : List Char) : pyStrip (pyStrip s) = pyStrip s :=
  pyStrip_eq_self_of_ends (fun _ h => pyStrip_head? h) (fun _ h => pyStrip_getLast? h)

theorem pyStrip_within (s : List Char) : pyStrip s <:+: s := by
  unfold pyStrip
  have h1 : s.dropWhile isPySpace <:+ s := List.dropWhile_suffix _
  have h2 : ((s.dropWhile isPySpace).reverse.dropWhile isPySpace).reverse <+:
      s.dropWhile isPySpace := by
    rw [← List.reverse_suffix, List.reverse_reverse]
    exact List.dropWhile_suffix _
  obtain ⟨u, hu⟩ := h2
  obtain ⟨v, hv⟩ := h1
  exact ⟨v, u, by rw [List.append_assoc, hu, hv]⟩

/- `collapseSpaces`: its output is in blank normal form, and it fixes
strings already in that form. -/

theorem mem_collapseAux {l : List Char} {prev : Bool} {c : Char}
    (h : c ∈ collapseAux prev l) : isPySpace c = true → c = ' ' := by
  induction l generalizing prev with
  | nil => simp [collapseAux] at h
  | cons d rest ih =>
    rw [collapseAux] at h
    split at h
    · rcases List.mem_append.mp h with h | h
      · intro _
        cases prev
        · simp at h
          exact h
        · simp at h
      · exact ih h
    · rcases List.mem_cons.mp h with h | h
      · subst h
        intro hs
        rename_i hd
        rw [hs] at hd
        exact absurd rfl hd
      · exact ih h

theorem head?_collapseAux_true {l : List Char} {b : Char}
    (hb : (collapseAux true l).head? = some b) : isPySpace b = false := by
  induction l with
  | nil => simp [collapseAux] at hb
  | cons c rest ih =>
    rw [collapseAux] at hb
    split at hb
    · refine ih ?_
      simp at hb
      exact hb
    · rename_i hc
      simp at hb
      rw [← hb]
      simpa using hc

theorem chain'_collapseAux (l : List Char) : ∀ prev,
    (collapseAux prev l).Chain' (fun a b => isPySpace a = false ∨ isPySpace b = false) := by
  induction l with
  | nil => intro prev; simp [collapseAux]
  | cons c rest ih =>
    intro prev
    rw [collapseAux]
    split
    · rename_i hc
      cases prev with
      | true => simpa using ih true
      | false =>
        rw [if_neg (by decide), List.singleton_append, List.chain'_cons']
        refine ⟨?_, ih true⟩
        intro y hy
        right
        exact head?_collapseAux_true hy
    · rename_i hc
      rw [List.chain'_cons']
      refine ⟨?_, ih false⟩
      intro y _
      left
      simpa using hc

theorem blanksOK_collapseSpaces (l : List Char) : blanksOK (collapseSpaces l) :=
  ⟨fun _ h => mem_collapseAux h, chain'_collapseAux l false⟩

theorem collapseAux_true_eq_false {l : List Char}
    (h : ∀ a, l.head? = some a → isPySpace a = false) :
    collapseAux true l = collapseAux false l := by
  cases l with
  | nil => rfl
  | cons c rest =>
    have hc := h c rfl
    rw [collapseAux, collapseAux, if_neg (by simp [hc]), if_neg (by simp [hc])]

theorem collapseSpaces_eq_self {l : List Char} (h : blanksOK l) :
    collapseSpaces l = l := by
  unfold collapseSpaces
  induction l with
  | nil => rfl
  | cons c rest ih =>
    obtain ⟨h1, h2⟩ := h
    have htail : blanksOK rest :=
      ⟨fun x hx hs => h1 x (List.mem_cons_of_mem _ hx) hs, h2.tail⟩
    cases hc : isPySpace c with
    | false =>
      rw [collapseAux, if_neg (by simp [hc]), ih htail]
    | true =>
      have hcb : c = ' ' := h1 c (List.mem_cons_self _ _) hc
      have hhead : ∀ a, rest.head? = some a → isPySpace a = false := by
        intro a ha
        cases rest with
        | nil => cases ha
        | cons d rest2 =>
          have hcd := (List.chain'_cons.mp h2).1
          simp at ha
          subst ha
          rcases hcd with h | h
          · rw [hc] at h; cases h
          · exact h
      rw [collapseAux, if_pos hc, collapseAux_true_eq_false hhead, ih htail, hcb]
      rfl

theorem blanksOK_within {l m : List Char} (h : blanksOK l) (hm : m <:+: l) :
    blanksOK m := by
  obtain ⟨s, t, hst⟩ := hm
  refine ⟨fun c hc => h.1 c (by rw [← hst]; simp [hc]), ?_⟩
  have hsuf : (m ++ t).Chain'
      (fun a b => isPySpace a = false ∨ isPySpace b = false) :=
    h.2.suffix ⟨s, by rw [← List.append_assoc, hst]⟩
  exact hsuf.prefix ⟨t, rfl⟩

theorem blanksOK_pyUpper {l : List Char} (h : blanksOK l) : blanksOK (pyUpper l) := by
  obtain ⟨h1, h2⟩ := h
  constructor
  · intro c hc hs
    obtain ⟨d, hd, rfl⟩ := List.mem_map.mp hc
    rw [isPySpace_toUpperChar] at hs
    rw [h1 d hd hs]
    decide
  · unfold pyUpper
    rw [List.chain'_map]
    apply h2.imp
    intro a b hab
    rcases hab with h | h
    · left; rwa [isPySpace_toUpperChar]
    · right; rwa [isPySpace_toUpperChar]

/- Shapes of the two name normalizers. -/

theorem normalize_company_name_shape {x y : List Char}
    (h : normalize_company_name x = some y) :
    y = pyStrip (removeSubs arabicWords (pyStrip x)) ∧ y ≠ [] := by
  unfold normalize_company_name at h
  simp only at h
  split at h
  · cases h
  · rename_i hne
    cases h
    exact ⟨rfl, hne⟩

theorem clean_company_name_shape {x y : List Char}
    (h : clean_company_name x = some y) :
    ∃ w, w = pyStrip (collapseSpaces (removeSubs arabicWords (removeWords suffixWords
        (removeBrackets (removeParens (pyStrip x)))))) ∧ y = pyUpper w ∧ w ≠ [] := by
  unfold clean_company_name at h
  simp only at h
  split at h
  · cases h
  · rename_i hne
    cases h
    exact ⟨_, rfl, rfl, hne⟩

/-- C9 (amended): both name normalizers are idempotent on every input whose
output is itself left unchanged by the removal passes (for
`normalize_company_name`, the Arabic-suffix substitution; for
`clean_company_name`, additionally the bracket and legal-suffix-word
substitutions).  Unconditional idempotence fails because a removal can
splice a new occurrence together, see the counterexample. -/
theorem C9_name_normalization_idempotent :
    (∀ x y, normalize_company_name x = some y →
        removeSubs arabicWords y = y → normalize_company_name y = some y) ∧
    (∀ x y, clean_company_name x = some y →
        removeParens y = y → removeBrackets y = y →
        removeWords suffixWords y = y → removeSubs arabicWords y = y →
        clean_company_name y = some y) := by
  constructor
  · intro x y h hfix
    obtain ⟨hy, hne⟩ := normalize_company_name_shape h
    have hstrip : pyStrip y = y := by rw [hy]; exact pyStrip_idem _
    unfold normalize_company_name
    simp only [hstrip, hfix]
    rw [if_neg (by simpa using hne)]
  · intro x y h hp hb hw hs
    obtain ⟨w, hw0, hyw, hwne⟩ := clean_company_name_shape h
    have hstrip : pyStrip y = y := by
      apply pyStrip_eq_self_of_ends
      · intro a ha
        rw [hyw] at ha
        unfold pyUpper at ha
        rw [List.head?_map] at ha
        cases hw1 : w.head? with
        | none => rw [hw1] at ha; cases ha
        | some b =>
          rw [hw1] at ha
          simp at ha
          rw [← ha, isPySpace_toUpperChar]
          exact pyStrip_head? (s := collapseSpaces (removeSubs arabicWords
            (removeWords suffixWords (removeBrackets (removeParens (pyStrip x))))))
            (by rw [← hw0]; exact hw1)
      · intro a ha
        rw [hyw] at ha
        unfold pyUpper at ha
        rw [List.getLast?_map] at ha
        cases hw1 : w.getLast? with
        | none => rw [hw1] at ha; cases ha
        | some b =>
          rw [hw1] at ha
          simp at ha
          rw [← ha, isPySpace_toUpperChar]
          exact pyStrip_getLast? (s := collapseSpaces (removeSubs arabicWords
            (removeWords suffixWords (removeBrackets (removeParens (pyStrip x))))))
            (by rw [← hw0]; exact hw1)
    have hblanks : blanksOK y := by
      rw [hyw]
      apply blanksOK_pyUpper
      rw [hw0]
      exact blanksOK_within (blanksOK_collapseSpaces _) (pyStrip_within _)
    have hcollapse : collapseSpaces y = y := collapseSpaces_eq_self hblanks
    have hyne : y ≠ [] := by
      rw [hyw]
      unfold pyUpper
      simpa using hwne
    unfold clean_company_name
    simp only [hstrip, hp, hb, hw, hs, hcollapse]
    rw [if_neg hyne]
    rw [hyw, pyUpper_idem]

theorem C9_name_normalization_idempotent_witness :
    (normalize_company_name "  Acme  ".data = some "Acme".data ∧
      normalize_company_name "Acme".data = some "Acme".data) ∧
    (clean_company_name "Acme (x) Trading Ltd".data = some "ACME TRADING".data ∧
      clean_company_name "ACME TRADING".data = some "ACME TRADING".data) :=
  ⟨⟨by decide, C9_name_normalization_idempotent.1 "  Acme  ".data "Acme".data
      (by decide) (by decide)⟩,
    ⟨by decide, C9_name_normalization_idempotent.2 "Acme (x) Trading Ltd".data
      "ACME TRADING".data (by decide) (by decide) (by decide) (by decide) (by decide)⟩⟩

/-- C9 (counterexample): removing an Arabic suffix occurrence can splice a new
occurrence together.  `شرشركةكة` (the word `شركة` interrupted by a copy of
itself) cleans/normalizes to `شركة`, whose cleaned/normalized form is absent,
so neither name normalizer is idempotent as claimed. -/
theorem C9_counterexample :
    clean_company_name "شرشركةكة".data = some "شركة".data ∧
      clean_company_name "شركة".data = none ∧
      normalize_company_name "شرشركةكة".data = some "شركة".data ∧
      normalize_company_name "شركة".data = none ∧
      (none : Option (List Char)) ≠ some "شركة".data := by
  refine ⟨by decide, by decide, by decide, by decide, by decide⟩

/-- C2 (counterexample): `normalize_phone("9669661234567") = "9661234567"`,
but normalizing that output again strips a second `966` prefix, so
`normalize_phone` is not idempotent as claimed. -/
theorem C2_counterexample :
    normalize_phone (some "9669661234567".data) = some "9661234567".data ∧
      normalize_phone (some "9661234567".data) = some "1234567".data ∧
      some "1234567".data ≠ some "9661234567".data := by
  decide


/- ===== SequenceMatcher: the position index ===== -/

theorem mem_posList {b : List Char} {c : Char} {j : Nat} :
    j ∈ posList b c ↔ j < b.length ∧ b.getD j ' ' = c := by
  unfold posList
  simp [List.mem_filter, List.mem_range]

theorem posList_pairwise (b : List Char) (c : Char) :
    (posList b c).Pairwise (· < ·) :=
  (List.pairwise_lt_range _).filter _

theorem mem_b2j {b : List Char} {c : Char} {j : Nat} (h : j ∈ b2j b c) :
    j < b.length ∧ b.getD j ' ' = c := by
  unfold b2j at h
  split at h
  · cases h
  · exact mem_posList.mp h

theorem b2j_complete {b : List Char} {c : Char} {j j' : Nat} (h : j ∈ b2j b c)
    (h1 : b.getD j' ' ' = c) (h2 : j' < b.length) : j' ∈ b2j b c := by
  unfold b2j at h ⊢
  split at h
  · cases h
  · rename_i hcond
    rw [if_neg hcond]
    exact mem_posList.mpr ⟨h2, h1⟩

theorem b2j_pairwise (b : List Char) (c : Char) : (b2j b c).Pairwise (· < ·) := by
  unfold b2j
  split
  · exact List.Pairwise.nil
  · exact posList_pairwise b c

/- ===== Run lengths of the scan's dynamic program ===== -/

theorem rl_zero_eq {f : Char → List Nat} {a : List Char} {j : Nat} :
    rl f a 0 j = if j ∈ f (a.getD 0 ' ') then 1 else 0 := rfl

theorem rl_succ_eq {f : Char → List Nat} {a : List Char} {i j : Nat} :
    rl f a (i + 1) j =
      if j ∈ f (a.getD (i + 1) ' ') then
        (if j = 0 then 0 else rl f a i (j - 1)) + 1
      else 0 := rfl

theorem rl_eq_zero_of_not_mem {f : Char → List Nat} {a : List Char} {i j : Nat}
    (h : j ∉ f (a.getD i ' ')) : rl f a i j = 0 := by
  cases i with
  | zero => rw [rl_zero_eq, if_neg h]
  | succ i' => rw [rl_succ_eq, if_neg h]

theorem rl_le_diag_left (f : Char → List Nat) (a : List Char)
    (hP1 : ∀ c j, j ∈ f c → a.getD j ' ' = c) :
    ∀ j i, j ≤ i → rl f a i j ≤ rl f a j j := by
  intro j
  induction j with
  | zero =>
    intro i _
    by_cases hm : 0 ∈ f (a.getD i ' ')
    · have hchar := hP1 _ _ hm
      have hm0 : 0 ∈ f (a.getD 0 ' ') := by rw [hchar]; exact hm
      cases i with
      | zero => exact le_refl _
      | succ i' =>
        rw [rl_succ_eq, if_pos hm, if_pos rfl, rl_zero_eq, if_pos hm0]
    · rw [rl_eq_zero_of_not_mem hm]; exact Nat.zero_le _
  | succ j' ih =>
    intro i hji
    by_cases hm : (j' + 1) ∈ f (a.getD i ' ')
    · obtain ⟨i', rfl⟩ : ∃ i'', i = i'' + 1 := ⟨i - 1, by omega⟩
      have hchar := hP1 _ _ hm
      have hmj : (j' + 1) ∈ f (a.getD (j' + 1) ' ') := by rw [hchar]; exact hm
      rw [rl_succ_eq, if_pos hm, if_neg (Nat.succ_ne_zero j'),
        rl_succ_eq, if_pos hmj, if_neg (Nat.succ_ne_zero j')]
      simp only [Nat.add_sub_cancel]
      exact Nat.succ_le_succ (ih i' (by omega))
    · rw [rl_eq_zero_of_not_mem hm]; exact Nat.zero_le _

theorem rl_le_diag_right (f : Char → List Nat) (a : List Char)
    (hP1 : ∀ c j, j ∈ f c → a.getD j ' ' = c)
    (hP2 : ∀ c j j', j ∈ f c → a.getD j' ' ' = c → j' < a.length → j' ∈ f c) :
    ∀ i j, i ≤ j → i < a.length → rl f a i j ≤ rl f a i i := by
  intro i
  induction i with
  | zero =>
    intro j _ hn
    by_cases hm : j ∈ f (a.getD 0 ' ')
    · have hm0 : 0 ∈ f (a.getD 0 ' ') := hP2 _ _ _ hm rfl hn
      rw [rl_zero_eq, if_pos hm, rl_zero_eq, if_pos hm0]
    · rw [rl_eq_zero_of_not_mem hm]; exact Nat.zero_le _
  | succ i' ih =>
    intro j hij hn
    by_cases hm : j ∈ f (a.getD (i' + 1) ' ')
    · obtain ⟨j'', rfl⟩ : ∃ j₀, j = j₀ + 1 := ⟨j - 1, by omega⟩
      have hmi : (i' + 1) ∈ f (a.getD (i' + 1) ' ') := hP2 _ _ _ hm rfl hn
      rw [rl_succ_eq, if_pos hm, if_neg (Nat.succ_ne_zero j''),
        rl_succ_eq, if_pos hmi, if_neg (Nat.succ_ne_zero i')]
      simp only [Nat.add_sub_cancel]
      exact Nat.succ_le_succ (ih j'' (by omega) (by omega))
    · rw [rl_eq_zero_of_not_mem hm]; exact Nat.zero_le _


/- ===== Equation lemmas for the scan (to control unfolding) ===== -/

theorem scanRow_nil {j2len : Nat → Nat} {i : Nat} {best : FlmState}
    {newj2len : Nat → Nat} : scanRow j2len i [] best newj2len = (best, newj2len) := rfl

theorem scanRow_cons {j2len : Nat → Nat} {i j : Nat} {js : List Nat}
    {best : FlmState} {newj2len : Nat → Nat} :
    scanRow j2len i (j :: js) best newj2len =
      scanRow j2len i js
        (if best.bestsize < (if j = 0 then 0 else j2len (j - 1)) + 1 then
          ⟨i + 1 - ((if j = 0 then 0 else j2len (j - 1)) + 1),
           j + 1 - ((if j = 0 then 0 else j2len (j - 1)) + 1),
           (if j = 0 then 0 else j2len (j - 1)) + 1⟩
         else best)
        (fun j' => if j' = j then (if j = 0 then 0 else j2len (j - 1)) + 1
          else newj2len j') := rfl

theorem scanRows_zero {a : List Char} {f : Char → List Nat} {blo bhi i : Nat}
    {best : FlmState} {j2len : Nat → Nat} :
    scanRows a f blo bhi i 0 best j2len = best := rfl

theorem scanRows_succ {a : List Char} {f : Char → List Nat} {blo bhi i rows : Nat}
    {best : FlmState} {j2len : Nat → Nat} :
    scanRows a f blo bhi i (rows + 1) best j2len =
      scanRows a f blo bhi (i + 1) rows
        (scanRow j2len i (((f (a.getD i ' ')).filter (fun j => blo ≤ j)).takeWhile
          (fun j => j < bhi)) best (fun _ => 0)).1
        (scanRow j2len i (((f (a.getD i ' ')).filter (fun j => blo ≤ j)).takeWhile
          (fun j => j < bhi)) best (fun _ => 0)).2 := rfl

theorem extendBack_zero {a b : List Char} {alo blo besti bestj bestsize : Nat} :
    extendBack a b alo blo 0 besti bestj bestsize = ⟨besti, bestj, bestsize⟩ := rfl

theorem extendBack_succ {a b : List Char} {alo blo fuel besti bestj bestsize : Nat} :
    extendBack a b alo blo (fuel + 1) besti bestj bestsize =
      if alo < besti ∧ blo < bestj ∧ a.getD (besti - 1) ' ' = b.getD (bestj - 1) ' '
      then extendBack a b alo blo fuel (besti - 1) (bestj - 1) (bestsize + 1)
      else ⟨besti, bestj, bestsize⟩ := rfl

theorem extendFwd_zero {a b : List Char} {ahi bhi besti bestj bestsize : Nat} :
    extendFwd a b ahi bhi 0 besti bestj bestsize = ⟨besti, bestj, bestsize⟩ := rfl

theorem extendFwd_succ {a b : List Char} {ahi bhi fuel besti bestj bestsize : Nat} :
    extendFwd a b ahi bhi (fuel + 1) besti bestj bestsize =
      if besti + bestsize < ahi ∧ bestj + bestsize < bhi ∧
          a.getD (besti + bestsize) ' ' = b.getD (bestj + bestsize) ' '
      then extendFwd a b ahi bhi fuel besti bestj (bestsize + 1)
      else ⟨besti, bestj, bestsize⟩ := rfl

theorem matchingSizeSum_zero {a b : List Char} {f : Char → List Nat}
    {alo ahi blo bhi : Nat} : matchingSizeSum a b f 0 alo ahi blo bhi = 0 := rfl

theorem matchingSizeSum_succ {a b : List Char} {f : Char → List Nat}
    {fuel alo ahi blo bhi : Nat} :
    matchingSizeSum a b f (fuel + 1) alo ahi blo bhi =
      if (findLongestMatch a b f alo ahi blo bhi).bestsize = 0 then 0
      else
        matchingSizeSum a b f fuel alo (findLongestMatch a b f alo ahi blo bhi).besti
            blo (findLongestMatch a b f alo ahi blo bhi).bestj +
          (findLongestMatch a b f alo ahi blo bhi).bestsize +
          matchingSizeSum a b f fuel
            ((findLongestMatch a b f alo ahi blo bhi).besti +
              (findLongestMatch a b f alo ahi blo bhi).bestsize) ahi
            ((findLongestMatch a b f alo ahi blo bhi).bestj +
              (findLongestMatch a b f alo ahi blo bhi).bestsize) bhi := rfl

/- ===== Window bounds of every returned block ===== -/

theorem scanRow_bounds {alo ahi blo bhi i : Nat} (hialo : alo ≤ i) (hiahi : i < ahi)
    {j2len : Nat → Nat}
    (hj2len : ∀ j', j2len j' ≤ i - alo ∧ j2len j' ≤ j' + 1 - blo) :
    ∀ (js : List Nat) (best : FlmState) (newj2len : Nat → Nat),
      (∀ j ∈ js, blo ≤ j ∧ j < bhi) →
      alo ≤ best.besti → best.besti + best.bestsize ≤ ahi →
      blo ≤ best.bestj → best.bestj + best.bestsize ≤ bhi →
      (∀ j', newj2len j' ≤ i + 1 - alo ∧ newj2len j' ≤ j' + 1 - blo) →
      (alo ≤ (scanRow j2len i js best newj2len).1.besti ∧
        (scanRow j2len i js best newj2len).1.besti +
          (scanRow j2len i js best newj2len).1.bestsize ≤ ahi ∧
        blo ≤ (scanRow j2len i js best newj2len).1.bestj ∧
        (scanRow j2len i js best newj2len).1.bestj +
          (scanRow j2len i js best newj2len).1.bestsize ≤ bhi) ∧
      (∀ j', (scanRow j2len i js best newj2len).2 j' ≤ i + 1 - alo ∧
        (scanRow j2len i js best newj2len).2 j' ≤ j' + 1 - blo) := by
  intro js
  induction js with
  | nil =>
    intro best newj2len _ h1 h2 h3 h4 h5
    rw [scanRow_nil]
    exact ⟨⟨h1, h2, h3, h4⟩, h5⟩
  | cons j js ih =>
    intro best newj2len hjs h1 h2 h3 h4 h5
    have hjmem := hjs j (List.mem_cons_self _ _)
    rw [scanRow_cons]
    have hk1 : (if j = 0 then 0 else j2len (j - 1)) + 1 ≤ i + 1 - alo := by
      by_cases hj0 : j = 0
      · rw [if_pos hj0]; omega
      · rw [if_neg hj0]; have := (hj2len (j - 1)).1; omega
    have hk2 : (if j = 0 then 0 else j2len (j - 1)) + 1 ≤ j + 1 - blo := by
      by_cases hj0 : j = 0
      · rw [if_pos hj0]
        have := hjmem.1
        omega
      · rw [if_neg hj0]
        have := (hj2len (j - 1)).2
        have := hjmem.1
        omega
    refine ih _ _ (fun x hx => hjs x (List.mem_cons_of_mem _ hx)) ?_ ?_ ?_ ?_ ?_
    · rcases Nat.lt_or_ge best.bestsize ((if j = 0 then 0 else j2len (j - 1)) + 1)
        with hup | hup
      · rw [if_pos hup]
        show alo ≤ i + 1 - ((if j = 0 then 0 else j2len (j - 1)) + 1)
        omega
      · rw [if_neg (Nat.not_lt.mpr hup)]
        exact h1
    · rcases Nat.lt_or_ge best.bestsize ((if j = 0 then 0 else j2len (j - 1)) + 1)
        with hup | hup
      · rw [if_pos hup]
        show i + 1 - ((if j = 0 then 0 else j2len (j - 1)) + 1) +
          ((if j = 0 then 0 else j2len (j - 1)) + 1) ≤ ahi
        omega
      · rw [if_neg (Nat.not_lt.mpr hup)]
        exact h2
    · rcases Nat.lt_or_ge best.bestsize ((if j = 0 then 0 else j2len (j - 1)) + 1)
        with hup | hup
      · rw [if_pos hup]
        show blo ≤ j + 1 - ((if j = 0 then 0 else j2len (j - 1)) + 1)
        have := hjmem.1
        omega
      · rw [if_neg (Nat.not_lt.mpr hup)]
        exact h3
    · rcases Nat.lt_or_ge best.bestsize ((if j = 0 then 0 else j2len (j - 1)) + 1)
        with hup | hup
      · rw [if_pos hup]
        show j + 1 - ((if j = 0 then 0 else j2len (j - 1)) + 1) +
          ((if j = 0 then 0 else j2len (j - 1)) + 1) ≤ bhi
        have := hjmem.2
        omega
      · rw [if_neg (Nat.not_lt.mpr hup)]
        exact h4
    · intro j'
      by_cases hj' : j' = j
      · rw [if_pos hj']
        subst hj'
        exact ⟨hk1, hk2⟩
      · rw [if_neg hj']
        exact h5 j'






















theorem scanRows_bounds (a : List Char) (f : Char → List Nat)
    (alo ahi blo bhi : Nat) :
    ∀ (rows i : Nat) (best : FlmState) (j2len : Nat → Nat),
      alo ≤ i → i + rows ≤ ahi →
      (∀ j', j2len j' ≤ i - alo ∧ j2len j' ≤ j' + 1 - blo) →
      alo ≤ best.besti → best.besti + best.bestsize ≤ ahi →
      blo ≤ best.bestj → best.bestj + best.bestsize ≤ bhi →
      (alo ≤ (scanRows a f blo bhi i rows best j2len).besti ∧
        (scanRows a f blo bhi i rows best j2len).besti +
          (scanRows a f blo bhi i rows best j2len).bestsize ≤ ahi ∧
        blo ≤ (scanRows a f blo bhi i rows best j2len).bestj ∧
        (scanRows a f blo bhi i rows best j2len).bestj +
          (scanRows a f blo bhi i rows best j2len).bestsize ≤ bhi) := by
  intro rows
  induction rows with
  | zero =>
    intro i best j2len _ _ _ h1 h2 h3 h4
    rw [scanRows_zero]
    exact ⟨h1, h2, h3, h4⟩
  | succ rows ih =>
    intro i best j2len hialo hirows hj2len h1 h2 h3 h4
    rw [scanRows_succ]
    have hjs : ∀ j ∈ ((f (a.getD i ' ')).filter (fun j => blo ≤ j)).takeWhile
        (fun j => j < bhi), blo ≤ j ∧ j < bhi := by
      intro j hj
      have hq := List.mem_takeWhile_imp hj
      have hp := (List.takeWhile_sublist _).mem hj
      rw [List.mem_filter] at hp
      exact ⟨by simpa using hp.2, by simpa using hq⟩
    have hrow := scanRow_bounds hialo (by omega) hj2len
      (((f (a.getD i ' ')).filter (fun j => blo ≤ j)).takeWhile (fun j => j < bhi))
      best (fun _ => 0) hjs h1 h2 h3 h4 (fun j' => ⟨Nat.zero_le _, Nat.zero_le _⟩)
    exact ih (i + 1) _ _ (by omega) (by omega)
      (fun j' => ⟨(hrow.2 j').1, (hrow.2 j').2⟩)
      hrow.1.1 hrow.1.2.1 hrow.1.2.2.1 hrow.1.2.2.2

theorem extendBack_bounds (a b : List Char) (alo blo ahi bhi : Nat) :
    ∀ (fuel besti bestj bestsize : Nat),
      alo ≤ besti → besti + bestsize ≤ ahi →
      blo ≤ bestj → bestj + bestsize ≤ bhi →
      (alo ≤ (extendBack a b alo blo fuel besti bestj bestsize).besti ∧
        (extendBack a b alo blo fuel besti bestj bestsize).besti +
          (extendBack a b alo blo fuel besti bestj bestsize).bestsize ≤ ahi ∧
        blo ≤ (extendBack a b alo blo fuel besti bestj bestsize).bestj ∧
        (extendBack a b alo blo fuel besti bestj bestsize).bestj +
          (extendBack a b alo blo fuel besti bestj bestsize).bestsize ≤ bhi) := by
  intro fuel
  induction fuel with
  | zero =>
    intro besti bestj bestsize h1 h2 h3 h4
    rw [extendBack_zero]
    exact ⟨h1, h2, h3, h4⟩
  | succ fuel ih =>
    intro besti bestj bestsize h1 h2 h3 h4
    rw [extendBack_succ]
    split
    · exact ih _ _ _ (by omega) (by omega) (by omega) (by omega)
    · exact ⟨h1, h2, h3, h4⟩

theorem extendFwd_bounds (a b : List Char) (ahi bhi alo blo : Nat) :
    ∀ (fuel besti bestj bestsize : Nat),
      alo ≤ besti → besti + bestsize ≤ ahi →
      blo ≤ bestj → bestj + bestsize ≤ bhi →
      (alo ≤ (extendFwd a b ahi bhi fuel besti bestj bestsize).besti ∧
        (extendFwd a b ahi bhi fuel besti bestj bestsize).besti +
          (extendFwd a b ahi bhi fuel besti bestj bestsize).bestsize ≤ ahi ∧
        blo ≤ (extendFwd a b ahi bhi fuel besti bestj bestsize).bestj ∧
        (extendFwd a b ahi bhi fuel besti bestj bestsize).bestj +
          (extendFwd a b ahi bhi fuel besti bestj bestsize).bestsize ≤ bhi) := by
  intro fuel
  induction fuel with
  | zero =>
    intro besti bestj bestsize h1 h2 h3 h4
    rw [extendFwd_zero]
    exact ⟨h1, h2, h3, h4⟩
  | succ fuel ih =>
    intro besti bestj bestsize h1 h2 h3 h4
    rw [extendFwd_succ]
    split
    · exact ih _ _ _ (by omega) (by omega) (by omega) (by omega)
    · exact ⟨h1, h2, h3, h4⟩

/-- Every block returned by `findLongestMatch` lies inside the window. -/
theorem findLongestMatch_bounds (a b : List Char) (f : Char → List Nat)
    (alo ahi blo bhi : Nat) (hw1 : alo ≤ ahi) (hw2 : blo ≤ bhi) :
    alo ≤ (findLongestMatch a b f alo ahi blo bhi).besti ∧
      (findLongestMatch a b f alo ahi blo bhi).besti +
        (findLongestMatch a b f alo ahi blo bhi).bestsize ≤ ahi ∧
      blo ≤ (findLongestMatch a b f alo ahi blo bhi).bestj ∧
      (findLongestMatch a b f alo ahi blo bhi).bestj +
        (findLongestMatch a b f alo ahi blo bhi).bestsize ≤ bhi := by
  unfold findLongestMatch
  have harith1 : alo + (ahi - alo) ≤ ahi := by omega
  have harith2 : alo + 0 ≤ ahi := by omega
  have harith3 : blo + 0 ≤ bhi := by omega
  have hs1 := scanRows_bounds a f alo ahi blo bhi (ahi - alo) alo ⟨alo, blo, 0⟩
    (fun _ => 0) (le_refl _) harith1
    (fun j' => ⟨Nat.zero_le _, Nat.zero_le _⟩) (le_refl _) harith2
    (le_refl _) harith3
  have hs2 := extendBack_bounds a b alo blo ahi bhi
    (scanRows a f blo bhi alo (ahi - alo) ⟨alo, blo, 0⟩ (fun _ => 0)).besti
    (scanRows a f blo bhi alo (ahi - alo) ⟨alo, blo, 0⟩ (fun _ => 0)).besti
    (scanRows a f blo bhi alo (ahi - alo) ⟨alo, blo, 0⟩ (fun _ => 0)).bestj
    (scanRows a f blo bhi alo (ahi - alo) ⟨alo, blo, 0⟩ (fun _ => 0)).bestsize
    hs1.1 hs1.2.1 hs1.2.2.1 hs1.2.2.2
  exact extendFwd_bounds a b ahi bhi alo blo _ _ _ _
    hs2.1 hs2.2.1 hs2.2.2.1 hs2.2.2.2

/-- The total matched size is bounded by both window widths. -/
theorem matchingSizeSum_le (a b : List Char) (f : Char → List Nat) :
    ∀ (fuel alo ahi blo bhi : Nat), alo ≤ ahi → blo ≤ bhi →
      matchingSizeSum a b f fuel alo ahi blo bhi ≤ ahi - alo ∧
      matchingSizeSum a b f fuel alo ahi blo bhi ≤ bhi - blo := by
  intro fuel
  induction fuel with
  | zero =>
    intro alo ahi blo bhi _ _
    rw [matchingSizeSum_zero]
    exact ⟨Nat.zero_le _, Nat.zero_le _⟩
  | succ fuel ih =>
    intro alo ahi blo bhi hw1 hw2
    rw [matchingSizeSum_succ]
    split
    · exact ⟨Nat.zero_le _, Nat.zero_le _⟩
    · have hb := findLongestMatch_bounds a b f alo ahi blo bhi hw1 hw2
      have hleft := ih alo (findLongestMatch a b f alo ahi blo bhi).besti blo
        (findLongestMatch a b f alo ahi blo bhi).bestj hb.1 hb.2.2.1
      have hright := ih
        ((findLongestMatch a b f alo ahi blo bhi).besti +
          (findLongestMatch a b f alo ahi blo bhi).bestsize) ahi
        ((findLongestMatch a b f alo ahi blo bhi).bestj +
          (findLongestMatch a b f alo ahi blo bhi).bestsize) bhi
        hb.2.1 hb.2.2.2
      constructor
      · have := hleft.1
        have := hright.1
        have := hb.1
        have := hb.2.1
        omega
      · have := hleft.2
        have := hright.2
        have := hb.2.2.1
        have := hb.2.2.2
        omega

/- ===== Bounds of the two score components ===== -/

theorem ratioQ_nonneg (a b : List Char) : 0 ≤ ratioQ a b := by
  unfold ratioQ
  split
  · norm_num
  · positivity

theorem ratioQ_le_one (a b : List Char) : ratioQ a b ≤ 1 := by
  unfold ratioQ
  split
  · exact le_refl 1
  · rename_i hne
    have hM := matchingSizeSum_le a b (b2j b)
      (a.length + 1) 0 a.length 0 b.length (Nat.zero_le _) (Nat.zero_le _)
    rw [div_le_one (by exact_mod_cast Nat.pos_of_ne_zero hne)]
    have h2 : 2 * matchingSizeSum a b (b2j b) (a.length + 1) 0 a.length 0 b.length ≤
        a.length + b.length := by
      have := hM.1
      have := hM.2
      omega
    exact_mod_cast h2

theorem keywordSim_nonneg (n1 n2 : List Char) : 0 ≤ keywordSim n1 n2 := by
  unfold keywordSim
  split
  · positivity
  · exact le_refl 0

theorem keywordSim_le_one (n1 n2 : List Char) : keywordSim n1 n2 ≤ 1 := by
  unfold keywordSim
  split
  · rename_i hne
    rw [div_le_one]
    · have hsub : (get_name_keywords (some n1) ∩ get_name_keywords (some n2)).card ≤
          max (get_name_keywords (some n1)).card (get_name_keywords (some n2)).card :=
        le_trans (Finset.card_le_card Finset.inter_subset_left) (le_max_left _ _)
      exact_mod_cast hsub
    · have hpos : 0 < (get_name_keywords (some n1)).card := Finset.card_pos.mpr hne.1
      have : 0 < max (get_name_keywords (some n1)).card
          (get_name_keywords (some n2)).card := lt_of_lt_of_le hpos (le_max_left _ _)
      exact_mod_cast this
  · norm_num

/- ===== Diagonal structure of the scan when a sequence is matched against
itself.  The scan can only record diagonal best blocks: an off-diagonal
candidate of run length `k` is always preceded (in scan order) by a diagonal
cell whose run length is at least `k`, so the `k > bestsize` update never
fires off the diagonal. ===== -/

theorem scanRow_diag (f : Char → List Nat) (a : List Char)
    (hP1 : ∀ c j, j ∈ f c → a.getD j ' ' = c ∧ j < a.length)
    (hP2 : ∀ c j j', j ∈ f c → a.getD j' ' ' = c → j' < a.length → j' ∈ f c)
    (i : Nat) (hi : i < a.length)
    (j2len : Nat → Nat)
    (hj2len : ∀ j, j2len j = if i = 0 then 0 else rl f a (i - 1) j) :
    ∀ (js : List Nat) (best : FlmState) (newj2len : Nat → Nat),
      js.Pairwise (· < ·) →
      (∀ j ∈ js, j ∈ f (a.getD i ' ')) →
      (∀ j', j' ∈ f (a.getD i ' ') → j' ∈ js ∨ ∀ j ∈ js, j' < j) →
      best.besti = best.bestj →
      (∀ i' j, i' < i → rl f a i' j ≤ best.bestsize) →
      (∀ j', j' ∈ f (a.getD i ' ') → (∀ j ∈ js, j' < j) →
        rl f a i j' ≤ best.bestsize) →
      (∀ j', newj2len j' =
        if j' ∈ f (a.getD i ' ') ∧ (∀ j ∈ js, j' < j) then rl f a i j' else 0) →
      ((scanRow j2len i js best newj2len).1.besti =
          (scanRow j2len i js best newj2len).1.bestj ∧
        (∀ i' j, i' < i + 1 →
          rl f a i' j ≤ (scanRow j2len i js best newj2len).1.bestsize) ∧
        (∀ j', (scanRow j2len i js best newj2len).2 j' = rl f a i j')) := by
  intro js
  induction js with
  | nil =>
    intro best newj2len _ _ _ hdiag hdomrows hdomrow hnew
    rw [scanRow_nil]
    refine ⟨hdiag, ?_, ?_⟩
    · intro i' j hi'
      rcases Nat.lt_or_ge i' i with h | h
      · exact hdomrows i' j h
      · have hii : i' = i := by omega
        subst hii
        by_cases hm : j ∈ f (a.getD i' ' ')
        · exact hdomrow j hm (fun x hx => absurd hx (List.not_mem_nil x))
        · rw [rl_eq_zero_of_not_mem hm]
          exact Nat.zero_le _
    · intro j'
      show newj2len j' = rl f a i j'
      rw [hnew j']
      by_cases hm : j' ∈ f (a.getD i ' ')
      · rw [if_pos ⟨hm, fun x hx => absurd hx (List.not_mem_nil x)⟩]
      · rw [if_neg (by tauto), rl_eq_zero_of_not_mem hm]
  | cons j0 js ih =>
    intro best newj2len hsort hmemf hdown hdiag hdomrows hdomrow hnew
    rw [scanRow_cons]
    have hj0f : j0 ∈ f (a.getD i ' ') := hmemf j0 (List.mem_cons_self _ _)
    have hk : (if j0 = 0 then 0 else j2len (j0 - 1)) + 1 = rl f a i j0 := by
      cases i with
      | zero =>
        rw [rl_zero_eq, if_pos hj0f]
        by_cases hj00 : j0 = 0
        · rw [if_pos hj00]
        · rw [if_neg hj00, hj2len, if_pos rfl]
      | succ i' =>
        rw [rl_succ_eq, if_pos hj0f]
        by_cases hj00 : j0 = 0
        · rw [if_pos hj00, if_pos hj00]
        · rw [if_neg hj00, if_neg hj00, hj2len, if_neg (Nat.succ_ne_zero i')]
          simp only [Nat.add_sub_cancel]
    have hnoup : j0 ≠ i →
        ¬(best.bestsize < (if j0 = 0 then 0 else j2len (j0 - 1)) + 1) := by
      intro hne
      rw [hk, Nat.not_lt]
      rcases Nat.lt_or_ge j0 i with hlt | hge
      · have h1 : rl f a i j0 ≤ rl f a j0 j0 :=
          rl_le_diag_left f a (fun c j hj => (hP1 c j hj).1) j0 i (by omega)
        have h2 : rl f a j0 j0 ≤ best.bestsize := hdomrows j0 j0 hlt
        omega
      · have hii : i < j0 := by omega
        have hmi : i ∈ f (a.getD i ' ') := hP2 _ _ _ hj0f rfl hi
        have h1 : rl f a i j0 ≤ rl f a i i :=
          rl_le_diag_right f a (fun c j hj => (hP1 c j hj).1) hP2 i j0 (by omega) hi
        have h2 : rl f a i i ≤ best.bestsize := by
          apply hdomrow i hmi
          intro x hx
          rcases List.mem_cons.mp hx with heq2 | hxs
          · rw [heq2]; exact hii
          · exact lt_trans hii (List.rel_of_pairwise_cons hsort hxs)
        omega
    refine ih _ _ hsort.of_cons (fun x hx => hmemf x (List.mem_cons_of_mem _ hx))
      ?_ ?_ ?_ ?_ ?_
    · intro j' hj'
      rcases hdown j' hj' with hin | hbelow
      · rcases List.mem_cons.mp hin with heq2 | hins
        · right
          intro x hx
          rw [heq2]
          exact List.rel_of_pairwise_cons hsort hx
        · left
          exact hins
      · right
        intro x hx
        exact hbelow x (List.mem_cons_of_mem _ hx)
    · by_cases hup : best.bestsize < (if j0 = 0 then 0 else j2len (j0 - 1)) + 1
      · rw [if_pos hup]
        by_cases hji : j0 = i
        · subst hji
          rfl
        · exact absurd hup (hnoup hji)
      · rw [if_neg hup]
        exact hdiag
    · intro i' j hi'
      by_cases hup : best.bestsize < (if j0 = 0 then 0 else j2len (j0 - 1)) + 1
      · rw [if_pos hup]
        have := hdomrows i' j hi'
        show rl f a i' j ≤ (if j0 = 0 then 0 else j2len (j0 - 1)) + 1
        omega
      · rw [if_neg hup]
        exact hdomrows i' j hi'
    · intro j' hj' hblw
      rcases Nat.lt_trichotomy j' j0 with hlt | heq | hgt
      · have hold : rl f a i j' ≤ best.bestsize := by
          apply hdomrow j' hj'
          intro x hx
          rcases List.mem_cons.mp hx with heq2 | hxs
          · rw [heq2]; exact hlt
          · exact hblw x hxs
        by_cases hup : best.bestsize < (if j0 = 0 then 0 else j2len (j0 - 1)) + 1
        · rw [if_pos hup]
          show rl f a i j' ≤ (if j0 = 0 then 0 else j2len (j0 - 1)) + 1
          omega
        · rw [if_neg hup]
          exact hold
      · subst heq
        by_cases hup : best.bestsize < (if j' = 0 then 0 else j2len (j' - 1)) + 1
        · rw [if_pos hup]
          show rl f a i j' ≤ (if j' = 0 then 0 else j2len (j' - 1)) + 1
          rw [hk]
        · rw [if_neg hup]
          rw [Nat.not_lt, hk] at hup
          exact hup
      · exfalso
        rcases hdown j' hj' with hin | hbelow
        · rcases List.mem_cons.mp hin with heq2 | hins
          · omega
          · exact absurd (hblw j' hins) (lt_irrefl j')
        · exact absurd (hbelow j0 (List.mem_cons_self _ _)) (by omega)
    · intro j'
      by_cases hj' : j' = j0
      · subst hj'
        have hb0 : ∀ x ∈ js, j' < x := fun x hx => List.rel_of_pairwise_cons hsort hx
        have hcond : j' ∈ f (a.getD i ' ') ∧ ∀ j ∈ js, j' < j := ⟨hj0f, hb0⟩
        show (if j' = j' then (if j' = 0 then 0 else j2len (j' - 1)) + 1
          else newj2len j') = _
        rw [if_pos rfl, if_pos hcond, hk]
      · show (if j' = j0 then (if j0 = 0 then 0 else j2len (j0 - 1)) + 1
          else newj2len j') = _
        rw [if_neg hj', hnew j']
        by_cases hcf : j' ∈ f (a.getD i ' ')
        · by_cases hbt : ∀ x ∈ js, j' < x
          · have hlt : j' < j0 := by
              rcases Nat.lt_trichotomy j' j0 with h | h | h
              · exact h
              · exact absurd h hj'
              · exfalso
                rcases hdown j' hcf with hin | hbelow
                · rcases List.mem_cons.mp hin with heq2 | hins
                  · exact absurd heq2 hj'
                  · exact absurd (hbt j' hins) (lt_irrefl j')
                · exact absurd (hbelow j0 (List.mem_cons_self _ _)) (by omega)
            have hb0 : ∀ x ∈ j0 :: js, j' < x := by
              intro x hx
              rcases List.mem_cons.mp hx with heq2 | hxs
              · rw [heq2]; exact hlt
              · exact hbt x hxs
            rw [if_pos ⟨hcf, hb0⟩, if_pos ⟨hcf, hbt⟩]
          · have hnb : ¬(∀ x ∈ j0 :: js, j' < x) := fun hall =>
              hbt (fun x hx => hall x (List.mem_cons_of_mem _ hx))
            rw [if_neg (by tauto), if_neg (by tauto)]
        · rw [if_neg (by tauto), if_neg (by tauto)]

theorem takeWhile_eq_self_of_forall {p : Nat → Bool} {l : List Nat}
    (h : ∀ x ∈ l, p x = true) : l.takeWhile p = l := by
  induction l with
  | nil => rfl
  | cons x xs ih =>
    rw [List.takeWhile_cons, h x (List.mem_cons_self _ _)]
    simp only [ite_true]
    rw [ih (fun y hy => h y (List.mem_cons_of_mem _ hy))]

theorem scanRows_diag (f : Char → List Nat) (a : List Char)
    (hP1 : ∀ c j, j ∈ f c → a.getD j ' ' = c ∧ j < a.length)
    (hP2 : ∀ c j j', j ∈ f c → a.getD j' ' ' = c → j' < a.length → j' ∈ f c)
    (hP3 : ∀ c, (f c).Pairwise (· < ·)) :
    ∀ (rows i : Nat) (best : FlmState) (j2len : Nat → Nat),
      i + rows ≤ a.length →
      (∀ j, j2len j = if i = 0 then 0 else rl f a (i - 1) j) →
      best.besti = best.bestj →
      (∀ i' j, i' < i → rl f a i' j ≤ best.bestsize) →
      (scanRows a f 0 a.length i rows best j2len).besti =
        (scanRows a f 0 a.length i rows best j2len).bestj := by
  intro rows
  induction rows with
  | zero =>
    intro i best j2len _ _ hdiag _
    rw [scanRows_zero]
    exact hdiag
  | succ rows ih =>
    intro i best j2len hlen hj2len hdiag hdom
    rw [scanRows_succ]
    have hi : i < a.length := by omega
    have hjs : ((f (a.getD i ' ')).filter (fun j => decide (0 ≤ j))).takeWhile
        (fun j => decide (j < a.length)) = f (a.getD i ' ') := by
      rw [List.filter_eq_self.mpr (fun x _ => by simp)]
      exact takeWhile_eq_self_of_forall
        (fun x hx => by simp [(hP1 _ x hx).2])
    rw [hjs]
    have hrow := scanRow_diag f a hP1 hP2 i hi j2len hj2len (f (a.getD i ' '))
      best (fun _ => 0) (hP3 _) (fun j hj => hj) (fun j' hj' => Or.inl hj')
      hdiag hdom
      (fun j' hj' hblw => absurd (hblw j' hj') (lt_irrefl j'))
      (fun j' => by
        rw [if_neg]
        rintro ⟨hm, hb⟩
        exact absurd (hb j' hm) (lt_irrefl j'))
    exact ih (i + 1) _ _ (by omega)
      (fun j => by rw [if_neg (Nat.succ_ne_zero i), Nat.add_sub_cancel, hrow.2.2 j])
      hrow.1 (fun i' j hi' => hrow.2.1 i' j hi')

theorem extendBack_self (a : List Char) :
    ∀ (d s : Nat), extendBack a a 0 0 d d d s = ⟨0, 0, s + d⟩ := by
  intro d
  induction d with
  | zero =>
    intro s
    rw [extendBack_zero, Nat.add_zero]
  | succ d ih =>
    intro s
    rw [extendBack_succ, if_pos ⟨Nat.succ_pos d, Nat.succ_pos d, rfl⟩]
    simp only [Nat.add_sub_cancel]
    rw [ih (s + 1)]
    have harith : s + 1 + d = s + (d + 1) := by omega
    rw [harith]

theorem extendFwd_self (a : List Char) :
    ∀ (fu m : Nat), m + fu = a.length →
      extendFwd a a a.length a.length fu 0 0 m = ⟨0, 0, a.length⟩ := by
  intro fu
  induction fu with
  | zero =>
    intro m hm
    rw [extendFwd_zero]
    simp only [Nat.add_zero] at hm
    rw [hm]
  | succ fu ih =>
    intro m hm
    have hmlt : 0 + m < a.length := by omega
    rw [extendFwd_succ, if_pos ⟨hmlt, by omega, rfl⟩]
    exact ih (m + 1) (by omega)

/-- When a non-empty sequence is matched against itself, the top-level
longest match is the whole sequence: the scan's best block is diagonal, and
the extension loops then stretch it to the full length. -/
theorem findLongestMatch_self (a : List Char) :
    findLongestMatch a a (b2j a) 0 a.length 0 a.length = ⟨0, 0, a.length⟩ := by
  have hP1 : ∀ c j, j ∈ b2j a c → a.getD j ' ' = c ∧ j < a.length := by
    intro c j hj
    have := mem_b2j hj
    exact ⟨this.2, this.1⟩
  have hP2 : ∀ c j j', j ∈ b2j a c → a.getD j' ' ' = c → j' < a.length →
      j' ∈ b2j a c := fun c j j' => b2j_complete
  have hdiag := scanRows_diag (b2j a) a hP1 hP2 (fun c => b2j_pairwise a c)
    (a.length - 0) 0 ⟨0, 0, 0⟩ (fun _ => 0) (by omega)
    (fun j => by rw [if_pos rfl]) rfl (fun i' j hi' => absurd hi' (Nat.not_lt_zero i'))
  have hbounds := scanRows_bounds a (b2j a) 0 a.length 0 a.length
    (a.length - 0) 0 ⟨0, 0, 0⟩ (fun _ => 0) (le_refl _) (by omega)
    (fun j' => ⟨Nat.zero_le _, Nat.zero_le _⟩) (le_refl _) (Nat.zero_le _)
    (le_refl _) (Nat.zero_le _)
  unfold findLongestMatch
  dsimp only
  set s1 := scanRows a (b2j a) 0 a.length 0 (a.length - 0) ⟨0, 0, 0⟩ (fun _ => 0)
    with hs1
  rw [← hdiag]
  rw [extendBack_self a s1.besti s1.bestsize]
  have hm : s1.bestsize + s1.besti ≤ a.length := by
    have := hbounds.2.1
    omega
  have hfuel : a.length - (0 + (s1.bestsize + s1.besti)) =
      a.length - (s1.bestsize + s1.besti) := by omega
  rw [hfuel]
  exact extendFwd_self a (a.length - (s1.bestsize + s1.besti))
    (s1.bestsize + s1.besti) (by omega)

theorem findLongestMatch_degenerate {a b : List Char} {f : Char → List Nat}
    (w x : Nat) : findLongestMatch a b f w w x x = ⟨w, x, 0⟩ := by
  unfold findLongestMatch
  rw [Nat.sub_self, scanRows_zero]
  dsimp only
  have hback : extendBack a b w x w w x 0 = ⟨w, x, 0⟩ := by
    cases w with
    | zero => rw [extendBack_zero]
    | succ w' =>
      rw [extendBack_succ, if_neg]
      rintro ⟨h1, -, -⟩
      exact lt_irrefl _ h1
  rw [hback]
  dsimp only
  simp only [Nat.add_zero, Nat.sub_self]
  rw [extendFwd_zero]

theorem matchingSizeSum_degenerate {a b : List Char} {f : Char → List Nat}
    (fuel w x : Nat) : matchingSizeSum a b f fuel w w x x = 0 := by
  cases fuel with
  | zero => rw [matchingSizeSum_zero]
  | succ fuel =>
    rw [matchingSizeSum_succ, findLongestMatch_degenerate w x, if_pos rfl]

/-- `ratio(a, a) = 1` for every sequence `a` (the script only uses it for
non-empty names, where difflib's extension loops always recover the full
diagonal even when autojunk has emptied the index). -/
theorem ratioQ_self (a : List Char) : ratioQ a a = 1 := by
  unfold ratioQ
  split
  · rfl
  · rename_i hne
    have hn : a.length ≠ 0 := by omega
    have hM : matchingSizeSum a a (b2j a) (a.length + 1) 0 a.length 0 a.length =
        a.length := by
      rw [matchingSizeSum_succ, findLongestMatch_self a]
      rw [if_neg hn]
      simp only [Nat.zero_add]
      rw [matchingSizeSum_degenerate, matchingSizeSum_degenerate]
      omega
    rw [hM]
    rw [div_eq_one_iff_eq (by exact_mod_cast hne)]
    ring

/-- C4: the similarity score always lies in `[0, 1]`, and equals `1` on any
non-empty name compared with itself (difflib's forward extension loop makes
`ratio(a,a) = 1` even when the autojunk heuristic empties the index). -/
theorem C4_similarity_bounds_and_self (a b : List Char) :
    (0 ≤ similarity_score a b ∧ similarity_score a b ≤ 1) ∧
      (a ≠ [] → similarity_score a a = 1) := by
  constructor
  · unfold similarity_score
    split
    · exact ⟨le_refl 0, by norm_num⟩
    · exact ⟨le_trans (ratioQ_nonneg a b) (le_max_left _ _),
        max_le (ratioQ_le_one a b) (keywordSim_le_one a b)⟩
  · intro ha
    unfold similarity_score
    rw [if_neg (by simp [ha]), ratioQ_self a]
    exact max_eq_left (keywordSim_le_one a a)

theorem C4_similarity_bounds_and_self_witness :
    (0 ≤ similarity_score "ACME".data "ACNE".data ∧
      similarity_score "ACME".data "ACNE".data ≤ 1) ∧
      ("ACME".data ≠ [] ∧ similarity_score "ACME".data "ACME".data = 1) :=
  ⟨(C4_similarity_bounds_and_self "ACME".data "ACNE".data).1,
    ⟨by decide,
      (C4_similarity_bounds_and_self "ACME".data "ACNE".data).2 (by decide)⟩⟩

/-- C5: the implemented scorer coincides with the spec's description --
`0.0` when either input is absent/empty, otherwise the maximum of the
character edit-similarity ratio and the keyword overlap
`|A ∩ B| / max(|A|,|B|)` (`0.0` when either keyword set is empty). -/
theorem C5_score_refines_spec (n1 n2 : List Char) :
    similarity_score n1 n2 = spec_similarity_score n1 n2 := by
  unfold similarity_score spec_similarity_score keywordSim
  split
  · rfl
  · have hc : ((get_name_keywords (some n1)).Nonempty ∧
        (get_name_keywords (some n2)).Nonempty) ↔
        (get_name_keywords (some n1) ≠ ∅ ∧ get_name_keywords (some n2) ≠ ∅) :=
      and_congr Finset.nonempty_iff_ne_empty Finset.nonempty_iff_ne_empty
    rw [if_congr hc rfl rfl]

/-- C3 (amended): the keyword-overlap component of the scorer is symmetric;
the full `similarity_score` is not, because `SequenceMatcher.ratio` is
order-dependent (see the counterexample). -/
theorem C3_keyword_component_symmetric (a b : List Char) :
    keywordSim a b = keywordSim b a := by
  unfold keywordSim
  have hc : ((get_name_keywords (some a)).Nonempty ∧
      (get_name_keywords (some b)).Nonempty) ↔
      ((get_name_keywords (some b)).Nonempty ∧
        (get_name_keywords (some a)).Nonempty) := and_comm
  rw [if_congr hc (by rw [Finset.inter_comm, max_comm]) rfl]

/-- C3 (counterexample): `similarity_score` is not symmetric.
`SequenceMatcher` picks the leftmost-in-`a` longest match; for
`a = "XXuzvYY"`, `b = "YYpqXXrz"` it picks `XX` and then still matches `z`
in the right remainder (ratio `6/15 = 2/5`), while in the swapped order it
picks `YY`, whose right remainder window in the other string is empty
(ratio `4/15`). -/
theorem C3_counterexample :
    similarity_score "XXuzvYY".data "YYpqXXrz".data = 2 / 5 ∧
      similarity_score "YYpqXXrz".data "XXuzvYY".data = 4 / 15 ∧
      (2 / 5 : ℚ) ≠ 4 / 15 := by
  have hM1 : matchingSizeSum "XXuzvYY".data "YYpqXXrz".data (b2j "YYpqXXrz".data)
      ("XXuzvYY".data.length + 1) 0 "XXuzvYY".data.length 0
      "YYpqXXrz".data.length = 3 := by decide
  have hM2 : matchingSizeSum "YYpqXXrz".data "XXuzvYY".data (b2j "XXuzvYY".data)
      ("YYpqXXrz".data.length + 1) 0 "YYpqXXrz".data.length 0
      "XXuzvYY".data.length = 2 := by decide
  have hr1 : ratioQ "XXuzvYY".data "YYpqXXrz".data = 2 / 5 := by
    unfold ratioQ
    rw [if_neg (by decide), hM1, show "XXuzvYY".data.length = 7 from rfl,
      show "YYpqXXrz".data.length = 8 from rfl]
    norm_num
  have hr2 : ratioQ "YYpqXXrz".data "XXuzvYY".data = 4 / 15 := by
    unfold ratioQ
    rw [if_neg (by decide), hM2, show "YYpqXXrz".data.length = 8 from rfl,
      show "XXuzvYY".data.length = 7 from rfl]
    norm_num
  have hk1 : keywordSim "XXuzvYY".data "YYpqXXrz".data = 0 := by
    unfold keywordSim
    rw [if_pos ⟨by decide, by decide⟩,
      show (get_name_keywords (some "XXuzvYY".data) ∩
        get_name_keywords (some "YYpqXXrz".data)).card = 0 from by decide]
    norm_num
  have hk2 : keywordSim "YYpqXXrz".data "XXuzvYY".data = 0 := by
    unfold keywordSim
    rw [if_pos ⟨by decide, by decide⟩,
      show (get_name_keywords (some "YYpqXXrz".data) ∩
        get_name_keywords (some "XXuzvYY".data)).card = 0 from by decide]
    norm_num
  refine ⟨?_, ?_, by norm_num⟩
  · unfold similarity_score
    rw [if_neg (by decide), hr1, hk1]
    exact max_eq_left (by norm_num)
  · unfold similarity_score
    rw [if_neg (by decide), hr2, hk2]
    exact max_eq_left (by norm_num)

/- ===== C7: keyword pruning ===== -/

/-- C7: a query whose cleaned name shares no keyword with any reference
record has an empty candidate set, so (for any admissible iteration order)
the keyword-pruned matcher emits nothing for it, whatever its character
similarity to the references would have been. -/
theorem smart_prune_of_disjoint (companies : List CsvCompany) (threshold : ℚ)
    (rawName : List Char) (ord : List Nat) (K : Finset (List Char))
    (hord : validOrder companies K ord)
    (hdisj : ∀ c ∈ companies, K ∩ c.keywords = ∅) :
    processQuerySmart companies threshold rawName ord = [] := by
  have hempty : candidateSet companies K = ∅ := by
    apply Finset.eq_empty_iff_forall_not_mem.mpr
    intro i hi
    unfold candidateSet at hi
    rw [Finset.mem_biUnion] at hi
    obtain ⟨kw, hkw, hipost⟩ := hi
    rw [List.mem_toFinset] at hipost
    unfold keyword_index at hipost
    rw [List.mem_filter] at hipost
    obtain ⟨-, hpred⟩ := hipost
    cases hc : companies.get? i with
    | none => rw [hc] at hpred; cases hpred
    | some c =>
      rw [hc] at hpred
      simp at hpred
      have hcin : c ∈ companies := List.get?_mem hc
      have hmemint : kw ∈ K ∩ c.keywords := by
        rw [Finset.mem_inter]
        exact ⟨hkw, hpred⟩
      rw [hdisj c hcin] at hmemint
      exact absurd hmemint (Finset.not_mem_empty kw)
  have hord_nil : ord = [] := by
    obtain ⟨-, hsub, -⟩ := hord
    cases hcase : ord with
    | nil => rfl
    | cons x xs =>
      have hx := hsub x (by rw [hcase]; exact List.mem_cons_self _ _)
      rw [hempty] at hx
      exact absurd hx (Finset.not_mem_empty x)
  subst hord_nil
  unfold processQuerySmart
  split
  · rfl
  · cases hcl : clean_company_name (pyStrip rawName) with
    | none => rfl
    | some cleaned =>
      dsimp only
      rw [if_pos rfl]

/-- C7: a query whose cleaned name shares no keyword with any reference
record has an empty candidate set, so (for any admissible iteration order)
the keyword-pruned matcher emits nothing for it, whatever its character
similarity to the references would have been. -/
theorem C7_keyword_pruning_soundness (companies : List CsvCompany)
    (threshold : ℚ) (rawName : List Char) (ord : List Nat)
    (hord : validOrder companies
      (get_name_keywords (clean_company_name (pyStrip rawName))) ord)
    (hdisj : ∀ c ∈ companies,
      get_name_keywords (clean_company_name (pyStrip rawName)) ∩ c.keywords = ∅) :
    processQuerySmart companies threshold rawName ord = [] :=
  smart_prune_of_disjoint companies threshold rawName ord
    (get_name_keywords (clean_company_name (pyStrip rawName))) hord hdisj

theorem C7_keyword_pruning_soundness_witness :
    validOrder (buildCsvCompanies [("companysa".data, "ABCY".data, none)])
      (get_name_keywords (clean_company_name (pyStrip "ABCX".data))) [] ∧
      (∀ c ∈ buildCsvCompanies [("companysa".data, "ABCY".data, none)],
        get_name_keywords (clean_company_name (pyStrip "ABCX".data)) ∩
          c.keywords = ∅) ∧
      (1 / 2 : ℚ) ≤ similarity_score "ABCX".data "ABCY".data ∧
      processQuerySmart (buildCsvCompanies [("companysa".data, "ABCY".data, none)])
        (1 / 2) "ABCX".data [] = [] := by
  have hM : matchingSizeSum "ABCX".data "ABCY".data (b2j "ABCY".data)
      ("ABCX".data.length + 1) 0 "ABCX".data.length 0
      "ABCY".data.length = 3 := by decide
  have hr : ratioQ "ABCX".data "ABCY".data = 3 / 4 := by
    unfold ratioQ
    rw [if_neg (by decide), hM, show "ABCX".data.length = 4 from rfl,
      show "ABCY".data.length = 4 from rfl]
    norm_num
  have hsim : (1 / 2 : ℚ) ≤ similarity_score "ABCX".data "ABCY".data := by
    unfold similarity_score
    rw [if_neg (by decide)]
    refine le_trans ?_ (le_max_left _ _)
    rw [hr]
    norm_num
  exact ⟨by decide, by decide, hsim,
    C7_keyword_pruning_soundness
      (buildCsvCompanies [("companysa".data, "ABCY".data, none)]) (1 / 2)
      "ABCX".data [] (by decide) (by decide)⟩

/- ===== Stable descending sort: permutation, order, stability ===== -/

theorem insertBM_perm (x : BestMatch) (l : List BestMatch) :
    (insertBM x l).Perm (x :: l) := by
  induction l with
  | nil => exact List.Perm.refl _
  | cons y ys ih =>
    rw [insertBM]
    split
    · exact List.Perm.refl _
    · exact (List.Perm.cons y ih).trans (List.Perm.swap x y ys)

theorem sortBM_perm (l : List BestMatch) : (sortBM l).Perm l := by
  induction l with
  | nil => exact List.Perm.refl _
  | cons x xs ih =>
    rw [sortBM]
    exact (insertBM_perm x (sortBM xs)).trans (List.Perm.cons x ih)

theorem mem_insertBM {z x : BestMatch} {l : List BestMatch} :
    z ∈ insertBM x l ↔ z = x ∨ z ∈ l := by
  rw [(insertBM_perm x l).mem_iff, List.mem_cons]

theorem insertBM_pairwise {x : BestMatch} {l : List BestMatch}
    (h : l.Pairwise (fun a b => b.similarity ≤ a.similarity)) :
    (insertBM x l).Pairwise (fun a b => b.similarity ≤ a.similarity) := by
  induction l with
  | nil => simp [insertBM]
  | cons y ys ih =>
    rw [insertBM]
    split
    · rename_i hyx
      rw [List.pairwise_cons]
      refine ⟨?_, h⟩
      intro z hz
      rcases List.mem_cons.mp hz with heq | hzs
      · rw [heq]; exact hyx
      · exact le_trans (List.rel_of_pairwise_cons h hzs) hyx
    · rename_i hyx
      rw [List.pairwise_cons]
      refine ⟨?_, ih (List.pairwise_cons.mp h).2⟩
      intro z hz
      rcases mem_insertBM.mp hz with heq | hzs
      · rw [heq]; exact le_of_not_le hyx
      · exact (List.pairwise_cons.mp h).1 z hzs

theorem sortBM_sorted (l : List BestMatch) :
    (sortBM l).Pairwise (fun a b => b.similarity ≤ a.similarity) := by
  induction l with
  | nil => exact List.Pairwise.nil
  | cons x xs ih =>
    rw [sortBM]
    exact insertBM_pairwise ih

theorem filter_insertBM_eq {x : BestMatch} {l : List BestMatch} {q : ℚ}
    (hx : x.similarity = q) :
    (insertBM x l).filter (fun m => decide (m.similarity = q)) =
      x :: l.filter (fun m => decide (m.similarity = q)) := by
  induction l with
  | nil =>
    rw [insertBM]
    simp [List.filter, hx]
  | cons y ys ih =>
    rw [insertBM]
    split
    · rename_i hyx
      rw [List.filter_cons, if_pos (by simp [hx])]
    · rename_i hyx
      have hy : ¬(y.similarity = q) := by
        intro he
        exact hyx (le_of_eq (by rw [he, hx]))
      rw [List.filter_cons, if_neg (by simpa using hy), ih,
        List.filter_cons, if_neg (by simpa using hy)]

theorem filter_insertBM_ne {x : BestMatch} {l : List BestMatch} {q : ℚ}
    (hx : ¬(x.similarity = q)) :
    (insertBM x l).filter (fun m => decide (m.similarity = q)) =
      l.filter (fun m => decide (m.similarity = q)) := by
  induction l with
  | nil =>
    rw [insertBM]
    simp [List.filter, hx]
  | cons y ys ih =>
    rw [insertBM]
    split
    · rename_i hyx
      rw [List.filter_cons, if_neg (by simpa using hx)]
    · rename_i hyx
      rw [List.filter_cons, List.filter_cons]
      by_cases hy : y.similarity = q
      · rw [if_pos (by simpa using hy), if_pos (by simpa using hy), ih]
      · rw [if_neg (by simpa using hy), if_neg (by simpa using hy), ih]

/-- The sort is stable: elements of any given similarity keep their
pre-sort relative order. -/
theorem sortBM_stable (l : List BestMatch) (q : ℚ) :
    (sortBM l).filter (fun m => decide (m.similarity = q)) =
      l.filter (fun m => decide (m.similarity = q)) := by
  induction l with
  | nil => rfl
  | cons x xs ih =>
    rw [sortBM]
    by_cases hx : x.similarity = q
    · rw [filter_insertBM_eq hx, ih, List.filter_cons, if_pos (by simpa using hx)]
    · rw [filter_insertBM_ne hx, ih, List.filter_cons, if_neg (by simpa using hx)]

/- ===== C8: the top-K cap ===== -/

/-- C8 (amended): when more than 3 candidates reach the threshold, exactly 3
matches are emitted, they are the top 3 of the stable descending sort of the
candidate list (so every emitted score is at least every non-emitted
candidate's score), and ties are kept in the candidate list's pre-sort
order — which is the candidate set's iteration order, not necessarily the
original input order (see the counterexample). -/
theorem C8_top3_cap (companies : List CsvCompany) (threshold : ℚ)
    (rawName : List Char) (ord : List Nat) (cleaned : List Char)
    (hname : ¬(pyStrip rawName = [] ∨ pyStrip rawName = "nan".data))
    (hclean : clean_company_name (pyStrip rawName) = some cleaned)
    (hord : ord ≠ [])
    (hcount : 3 < (bestMatchesOf companies threshold cleaned ord).length) :
    (processQuerySmart companies threshold rawName ord).length = 3 ∧
      ((processQuerySmart companies threshold rawName ord).map
          (fun m => m.similarity) =
        ((sortBM (bestMatchesOf companies threshold cleaned ord)).take 3).map
          (fun m => m.similarity)) ∧
      (∀ x ∈ (sortBM (bestMatchesOf companies threshold cleaned ord)).take 3,
        ∀ y ∈ (sortBM (bestMatchesOf companies threshold cleaned ord)).drop 3,
          y.similarity ≤ x.similarity) ∧
      (∀ q : ℚ,
        (sortBM (bestMatchesOf companies threshold cleaned ord)).filter
            (fun m => decide (m.similarity = q)) =
          (bestMatchesOf companies threshold cleaned ord).filter
            (fun m => decide (m.similarity = q))) := by
  have hbm : bestMatchesOf companies threshold cleaned ord ≠ [] := by
    intro hnil
    rw [hnil] at hcount
    simp at hcount
  have hout : processQuerySmart companies threshold rawName ord =
      ((sortBM (bestMatchesOf companies threshold cleaned ord)).take 3).map
        (fun m =>
          { excel_name := pyStrip rawName
            excel_cleaned := cleaned
            csv_source := ((companies.get? m.csv_idx).map
              (fun c => c.source)).getD []
            csv_name := ((companies.get? m.csv_idx).map
              (fun c => c.original_name)).getD []
            csv_cleaned := ((companies.get? m.csv_idx).map
              (fun c => c.cleaned_name)).getD none
            csv_phone := ((companies.get? m.csv_idx).map
              (fun c => c.phone)).getD none
            similarity := m.similarity }) := by
    unfold processQuerySmart
    rw [if_neg hname, hclean]
    dsimp only
    rw [if_neg hord, if_neg hbm]
  have hslen : (sortBM (bestMatchesOf companies threshold cleaned ord)).length =
      (bestMatchesOf companies threshold cleaned ord).length :=
    (sortBM_perm _).length_eq
  refine ⟨?_, ?_, ?_, fun q => sortBM_stable _ q⟩
  · rw [hout, List.length_map, List.length_take]
    omega
  · rw [hout, List.map_map]
    exact List.map_congr_left (fun m _ => rfl)
  · intro x hx y hy
    have hsorted := sortBM_sorted (bestMatchesOf companies threshold cleaned ord)
    rw [← List.take_append_drop 3
      (sortBM (bestMatchesOf companies threshold cleaned ord))] at hsorted
    exact (List.pairwise_append.mp hsorted).2.2 x hx y hy

theorem C8_top3_cap_witness :
    (3 < (bestMatchesOf (buildCsvCompanies
        [("s".data, "ABCD (1)".data, none), ("s".data, "ABCD (2)".data, none),
         ("s".data, "ABCD (3)".data, none), ("s".data, "ABCD (4)".data, none)])
        (1 / 2) "ABCD".data [0, 1, 2, 3]).length) ∧
      (processQuerySmart (buildCsvCompanies
        [("s".data, "ABCD (1)".data, none), ("s".data, "ABCD (2)".data, none),
         ("s".data, "ABCD (3)".data, none), ("s".data, "ABCD (4)".data, none)])
        (1 / 2) "ABCD".data [0, 1, 2, 3]).length = 3 :=
  ⟨by with_unfolding_all decide,
    (C8_top3_cap (buildCsvCompanies
        [("s".data, "ABCD (1)".data, none), ("s".data, "ABCD (2)".data, none),
         ("s".data, "ABCD (3)".data, none), ("s".data, "ABCD (4)".data, none)])
      (1 / 2) "ABCD".data [0, 1, 2, 3] "ABCD".data (by decide) (by decide)
      (by decide) (by with_unfolding_all decide)).1⟩

/-- C8 (counterexample): ties are broken by the candidate set's iteration
order, not by original input order.  Four reference rows tie at similarity
`1.0` for the query `ABCD`; under the admissible iteration order
`[3, 2, 1, 0]` of the candidate set `{0, 1, 2, 3}` the emitted matches are
rows 3, 2, 1, while tie-breaking by original input order would emit rows
0, 1, 2. -/
theorem C8_counterexample :
    validOrder (buildCsvCompanies
        [("s".data, "ABCD (1)".data, none), ("s".data, "ABCD (2)".data, none),
         ("s".data, "ABCD (3)".data, none), ("s".data, "ABCD (4)".data, none)])
      (get_name_keywords (clean_company_name (pyStrip "ABCD".data)))
      [3, 2, 1, 0] ∧
      ((processQuerySmart (buildCsvCompanies
          [("s".data, "ABCD (1)".data, none), ("s".data, "ABCD (2)".data, none),
           ("s".data, "ABCD (3)".data, none), ("s".data, "ABCD (4)".data, none)])
          (1 / 2) "ABCD".data [3, 2, 1, 0]).map (fun m => m.csv_name) =
        ["ABCD (4)".data, "ABCD (3)".data, "ABCD (2)".data]) ∧
      ["ABCD (4)".data, "ABCD (3)".data, "ABCD (2)".data] ≠
        ["ABCD (1)".data, "ABCD (2)".data, "ABCD (3)".data] := by
  refine ⟨by decide, by with_unfolding_all decide, by decide⟩

/- ===== C10 and C6: the optimized matcher's output ===== -/

theorem emitStage_mem {en : List Char} {k : MatchKind} {s : ℚ} :
    ∀ (cs : List OptCompany) (matched : List (List Char × List Char))
      (m : OptMatch), m ∈ (emitStage en k s cs matched).1 →
      m.kind = k ∧ m.similarity = s ∧ m.excel_name = en := by
  intro cs
  induction cs with
  | nil =>
    intro matched m hm
    rw [emitStage] at hm
    cases hm
  | cons c cs ih =>
    intro matched m hm
    rw [emitStage] at hm
    split at hm
    · exact ih _ _ hm
    · rcases List.mem_cons.mp hm with heq | hmem
      · rw [heq]
        exact ⟨rfl, rfl, rfl⟩
      · exact ih _ _ hmem

/-- C10: every match the optimized variant emits is either an exact match
with score `1.0` or a normalized match with score `0.95`; in particular no
PHONE-kind match is ever emitted, even though the phone index
(`csv_companies_by_phone`) is built — the matching loop never consults it. -/
theorem C10_no_phone_stage
    (rows : List (List Char × List Char × Option (List Char)))
    (queries : List (List Char)) (m : OptMatch)
    (hm : m ∈ matchesOpt rows queries) :
    m.kind ≠ MatchKind.phone ∧
      ((m.kind = MatchKind.exact ∧ m.similarity = 1) ∨
        (m.kind = MatchKind.normalized ∧ m.similarity = 95 / 100)) := by
  obtain ⟨q, -, hmq⟩ := List.mem_flatMap.mp hm
  unfold processQueryOpt at hmq
  split at hmq
  · cases hmq
  · rcases List.mem_append.mp hmq with h1 | h2
    · have := emitStage_mem _ _ m h1
      refine ⟨?_, Or.inl ⟨this.1, this.2.1⟩⟩
      rw [this.1]
      intro hcontra
      cases hcontra
    · revert h2
      split
      · intro h2
        cases h2
      · intro h2
        have := emitStage_mem _ _ m h2
        refine ⟨?_, Or.inr ⟨this.1, this.2.1⟩⟩
        rw [this.1]
        intro hcontra
        cases hcontra

theorem C10_no_phone_stage_witness :
    ((csv_companies_by_phone
        [("companysa".data, "ACME".data, some "0501234567".data)]
        "501234567".data).length = 1 ∧
      (matchesOpt [("companysa".data, "ACME".data,
        some "0501234567".data)] ["ACME".data]).length = 1) ∧
      ∀ m ∈ matchesOpt [("companysa".data, "ACME".data, some "0501234567".data)]
        ["ACME".data],
        m.kind ≠ MatchKind.phone ∧
          ((m.kind = MatchKind.exact ∧ m.similarity = 1) ∨
            (m.kind = MatchKind.normalized ∧ m.similarity = 95 / 100)) :=
  ⟨⟨by decide, by decide⟩,
    fun m hm => C10_no_phone_stage
      [("companysa".data, "ACME".data, some "0501234567".data)]
      ["ACME".data] m hm⟩

theorem mem_csv_companies_by_name {rows : List (List Char × List Char ×
    Option (List Char))} {nm : List Char} : ∀ {s : List Char}
    {ph : Option (List Char)},
    (s, nm, ph) ∈ rows → ¬(nm = [] ∨ nm = "nan".data) →
    mkOptCompany s nm ph ∈ csv_companies_by_name rows nm := by
  intro s ph hr h1
  unfold csv_companies_by_name
  rw [List.mem_flatMap]
  refine ⟨(s, nm, ph), hr, ?_⟩
  rw [if_neg h1]
  apply List.mem_append_left
  rw [if_pos rfl]
  exact List.mem_singleton.mpr rfl

theorem emitStage_ne_nil {en : List Char} {k : MatchKind} {s : ℚ}
    {c : OptCompany} {cs : List OptCompany} :
    (emitStage en k s (c :: cs) []).1 ≠ [] := by
  rw [emitStage, if_neg (List.not_mem_nil _)]
  exact List.cons_ne_nil _ _

/-- C6 (amended): if a reference record's name equals a query verbatim, and
that name survives the query-side guards — unchanged by stripping, non-empty
and not the literal string `nan` — then at least one exact match with score
`1.0` is emitted for that query.  Without those guards the claim fails, see
the counterexample. -/
theorem C6_exact_match_completeness
    (rows : List (List Char × List Char × Option (List Char)))
    (queries : List (List Char)) (q src : List Char) (ph : Option (List Char))
    (hr : (src, q, ph) ∈ rows)
    (hq1 : pyStrip q = q) (hq2 : q ≠ []) (hq3 : q ≠ "nan".data)
    (hqin : q ∈ queries) :
    ∃ m ∈ matchesOpt rows queries,
      m.excel_name = q ∧ m.kind = MatchKind.exact ∧ m.similarity = 1 := by
  have hguard : ¬(q = [] ∨ q = "nan".data) := by
    rintro (h | h)
    · exact hq2 h
    · exact hq3 h
  have hhits : csv_companies_by_name rows q ≠ [] :=
    List.ne_nil_of_mem (mem_csv_companies_by_name hr hguard)
  obtain ⟨c, cs, hcs⟩ := List.exists_cons_of_ne_nil hhits
  have hne : (emitStage q MatchKind.exact 1 (csv_companies_by_name rows q) []).1 ≠
      [] := by
    rw [hcs]
    exact emitStage_ne_nil
  obtain ⟨m, hm⟩ := List.exists_mem_of_ne_nil _ hne
  refine ⟨m, ?_, ?_⟩
  · unfold matchesOpt
    rw [List.mem_flatMap]
    refine ⟨q, hqin, ?_⟩
    unfold processQueryOpt
    rw [hq1, if_neg hguard]
    exact List.mem_append_left _ hm
  · have hp := emitStage_mem _ _ m hm
    exact ⟨hp.2.2, hp.1, hp.2.1⟩

theorem C6_exact_match_completeness_witness :
    (("companysa".data, "ACME".data, (none : Option (List Char))) ∈
        [("companysa".data, "ACME".data, (none : Option (List Char)))] ∧
      pyStrip "ACME".data = "ACME".data) ∧
      ∃ m ∈ matchesOpt [("companysa".data, "ACME".data, none)] ["ACME".data],
        m.excel_name = "ACME".data ∧ m.kind = MatchKind.exact ∧
          m.similarity = 1 :=
  ⟨⟨by decide, by decide⟩,
    C6_exact_match_completeness
      [("companysa".data, "ACME".data, none)] ["ACME".data] "ACME".data
      "companysa".data none (by decide) (by decide) (by decide) (by decide)
      (by decide)⟩

/-- C6 (counterexample): two queries whose names equal a reference name
verbatim and are non-empty, yet no match (in particular no EXACT match) is
emitted.  With the name `nan`, both sides are discarded by the
literal-`nan` guard; with the name ` شركة` (leading blank and the word
`شركة`), the query is stripped before lookup while the index holds the
unstripped raw name, and the normalized key is absent on both sides, so
both lookups miss. -/
theorem C6_counterexample :
    matchesOpt [("companysa".data, "nan".data, none)] ["nan".data] = [] ∧
      "nan".data ≠ [] ∧
      matchesOpt [("companysa".data, " شركة".data, none)] [" شركة".data] = [] ∧
      " شركة".data ≠ [] := by
  refine ⟨by decide, by decide, by decide, by decide⟩

end CompareCompanies
